import Mathlib

/-!
Verification development for the nyandere CSX/CCO patcher core.

The Rust core (src/cotopha.rs, src/cotopha/compact.rs) is shallowly embedded
here.  Byte strings are `List Nat` (each element a byte value < 256 for real
inputs); machine integers are `Nat` with explicit `% 2^32` / `% 2^64` at the
places where the source casts or wraps.  Fallible code returns `Except Error`
or `Option`; a Rust panic (the `unwrap` inside `CSX::rebuild`) is modelled as
`Option.none`.  The cryptographic and compression primitives (SHA3-224,
zlib, bsdiff) are black boxes in the source's design; they are modelled from
the spec by their external contracts (see `sha3_224` and `Codecs`).
-/

namespace Nyandere

abbrev Bytes := List Nat

/-- Little-endian value of a byte list (models `u32::from_le_bytes` /
`u64::from_le_bytes` when the list has length 4 / 8). -/
def fromLE (l : Bytes) : Nat := l.foldr (fun b acc => b + 256 * acc) 0

/-- `k` little-endian bytes of `n` (models `to_le_bytes` on a value already
reduced mod 2^(8k)). -/
def toLE : Nat → Nat → Bytes
  | 0, _ => []
  | k + 1, n => n % 256 :: toLE k (n / 256)

/-- Models `slice.split_off(..n)`: the first `n` elements and the rest, or
`none` when fewer than `n` are available. -/
def takeN? (n : Nat) (l : Bytes) : Option (Bytes × Bytes) :=
  if n ≤ l.length then some (l.take n, l.drop n) else none

/-- The error taxonomy of the core (`enum Error` in src/cotopha.rs).  The
`IO` variant carries errors of the black-box compression primitives, which
are modelled as total functions here, so it is omitted. -/
inductive Error where
  | unexpectedEof
  | badMagic
  | badAddress
  | badFunctionName
  | epilogueNotEmpty
  | decodeUtf16
  | decodeUtf8
  | unknownSection (tag : Bytes)
  | badSection (tag : Bytes)
  | incompatibleGlobal
  | incompatibleData
  | hashMismatch
  | noMods
  | modsConflicts (name : Bytes)
deriving DecidableEq, Repr

deriving instance DecidableEq for Except

/-- The 56-byte CSX magic: `Entis\x1a\0\0`, `\xff\xff\xff\xff`, four zero
bytes, the ASCII banner `Cotopha Image file`, then 22 zero bytes. -/
def MAGIC : Bytes :=
  [69, 110, 116, 105, 115, 26, 0, 0] ++ [255, 255, 255, 255] ++ [0, 0, 0, 0] ++
  [67, 111, 116, 111, 112, 104, 97, 32, 73, 109, 97, 103, 101, 32, 102, 105, 108, 101] ++
  List.replicate 22 0

/-- UTF-16LE bytes of `@Initialize` (the `PROLOGUE` constant). -/
def PROLOGUE : Bytes :=
  [64, 0, 73, 0, 110, 0, 105, 0, 116, 0, 105, 0, 97, 0, 108, 0, 105, 0, 122, 0, 101, 0]

/-- UTF-8 bytes of `@Initialize` (Rust `String` values are modelled by their
UTF-8 byte representation; equality of strings is equality of these lists). -/
def atInitialize : Bytes :=
  [64, 73, 110, 105, 116, 105, 97, 108, 105, 122, 101]

/-- Section tag constants (8 ASCII bytes each). -/
def secImage : Bytes := [105, 109, 97, 103, 101, 32, 32, 32]

def secFunction : Bytes := [102, 117, 110, 99, 116, 105, 111, 110]

def secGlobal : Bytes := [103, 108, 111, 98, 97, 108, 32, 32]

def secData : Bytes := [100, 97, 116, 97, 32, 32, 32, 32]

def secConststr : Bytes := [99, 111, 110, 115, 116, 115, 116, 114]

def secLinkinf : Bytes := [108, 105, 110, 107, 105, 110, 102, 32]

/-- Modelled from the spec: SHA3-224 is a black-box digest that "identifies a
specific base image" (spec §3), i.e. it is specified only as an injective
fingerprint of the input bytes.  It is modelled as the injective function
that keeps the bytes themselves. -/
def sha3_224 (data : Bytes) : Bytes := data

/-- `Hash::default()` (the all-zero digest given to mod-mode parses). -/
def hashDefault : Bytes := List.replicate 28 0

/-- Group a byte list into little-endian 16-bit units; fails on odd length
(as `String::from_utf16le` does). -/
def utf16Units : Bytes → Option (List Nat)
  | [] => some []
  | a :: b :: r => (utf16Units r).map (fun us => (a + 256 * b) :: us)
  | [_] => none

/-- Combine UTF-16 code units into scalar values, rejecting unpaired
surrogates (the failure mode of `String::from_utf16le`). -/
def scalarsOfUnits : List Nat → Option (List Nat)
  | [] => some []
  | u :: r =>
    if u < 0xD800 ∨ 0xE000 ≤ u then (scalarsOfUnits r).map (fun s => u :: s)
    else if u < 0xDC00 then
      match r with
      | v :: r2 =>
        if 0xDC00 ≤ v ∧ v < 0xE000 then
          (scalarsOfUnits r2).map (fun s => (0x10000 + (u - 0xD800) * 0x400 + (v - 0xDC00)) :: s)
        else none
      | [] => none
    else none

/-- UTF-8 encoding of one scalar value. -/
def utf8Encode (c : Nat) : Bytes :=
  if c < 0x80 then [c]
  else if c < 0x800 then [0xC0 + c / 64, 0x80 + c % 64]
  else if c < 0x10000 then [0xE0 + c / 4096, 0x80 + c / 64 % 64, 0x80 + c % 64]
  else [0xF0 + c / 0x40000, 0x80 + c / 4096 % 64, 0x80 + c / 64 % 64, 0x80 + c % 64]

/-- `from_utf16` in the source: `String::from_utf16le` mapped to
`Error::DecodeUtf16`; the resulting Rust `String` is modelled by its UTF-8
bytes. -/
def from_utf16 (bytes : Bytes) : Except Error Bytes :=
  match (utf16Units bytes).bind scalarsOfUnits with
  | some s => .ok (s.map utf8Encode).flatten
  | none => .error .decodeUtf16

/-- A (name, bytecode) function record.  `name` holds the UTF-8 bytes of the
Rust `String`. -/
structure Function where
  name : Bytes
  bytecode : Bytes
deriving DecidableEq, Repr

instance : Inhabited Function := ⟨⟨[], []⟩⟩

/-- The in-memory CSX image.  `base_func` models the `HashMap` as its list of
insertions (lookup takes the latest binding); `mods_used` models the
`HashSet` as its list of insertions. -/
structure CSX where
  base_hash : Bytes
  base_func : List (Bytes × Nat)
  mods_used : List Bytes
  global : Bytes
  data : Bytes
  functions : List Function
deriving DecidableEq, Repr

/-- `HashMap::get`: the latest insertion for the key wins. -/
def hmGet (m : List (Bytes × Nat)) (k : Bytes) : Option Nat :=
  (m.reverse.find? (fun p => p.1 = k)).map (fun p => p.2)

/-- `extract_name`: at `addr` in `image`, expect tag byte 4, a `u32 LE`
character count, then twice that many name bytes; `BadAddress` otherwise
(also when `addr` is out of range or a read runs off the end). -/
def extract_name (image : Bytes) (addr : Nat) : Except Error Bytes :=
  if addr ≤ image.length then
    match takeN? 1 (image.drop addr) with
    | some (tag, rest) =>
      if tag = [4] then
        match takeN? 4 rest with
        | some (lb, rest2) =>
          match takeN? (2 * fromLE lb) rest2 with
          | some (nm, _) => .ok nm
          | none => .error .badAddress
        | none => .error .badAddress
      else .error .badAddress
    | none => .error .badAddress
  else .error .badAddress

/-- `validate_name`: the embedded name at `addr` must equal `name`. -/
def validate_name (image : Bytes) (addr : Nat) (name : Bytes) : Except Error Unit :=
  match extract_name image addr with
  | .ok actual => if name = actual then .ok () else .error .badFunctionName
  | .error e => .error e

/-- Accumulated section bodies while scanning the section sequence. -/
structure Sections where
  image : Bytes
  function : Bytes
  global : Bytes
  data : Bytes
  conststr : Bytes
  linkinf : Bytes
deriving DecidableEq, Repr

def Sections.empty : Sections := ⟨[], [], [], [], [], []⟩

/-- One pass of the section loop: 8-byte tag, 8-byte LE length, body.  A
repeated tag overwrites the previously stored body.  `fuel` only forces
termination; it is never exhausted when `fuel ≥ input length`. -/
def parseSections : Nat → Bytes → Sections → Except Error Sections
  | 0, csx, st => if csx.isEmpty then .ok st else .error .unexpectedEof
  | fuel + 1, csx, st =>
    if csx.isEmpty then .ok st
    else
      match takeN? 8 csx with
      | none => .error .unexpectedEof
      | some (header, r1) =>
        match takeN? 8 r1 with
        | none => .error .unexpectedEof
        | some (lenb, r2) =>
          match takeN? (fromLE lenb) r2 with
          | none => .error .unexpectedEof
          | some (contents, rest) =>
            if header = secImage then parseSections fuel rest { st with image := contents }
            else if header = secFunction then
              parseSections fuel rest { st with function := contents }
            else if header = secGlobal then parseSections fuel rest { st with global := contents }
            else if header = secData then parseSections fuel rest { st with data := contents }
            else if header = secConststr then
              parseSections fuel rest { st with conststr := contents }
            else if header = secLinkinf then parseSections fuel rest { st with linkinf := contents }
            else .error (.unknownSection header)

/-- The record update a recognized tag performs on the accumulated
sections. -/
def updateSec (st : Sections) (tag : Bytes) (c : Bytes) : Sections :=
  if tag = secImage then { st with image := c }
  else if tag = secFunction then { st with function := c }
  else if tag = secGlobal then { st with global := c }
  else if tag = secData then { st with data := c }
  else if tag = secConststr then { st with conststr := c }
  else if tag = secLinkinf then { st with linkinf := c }
  else st

/-- The prologue loop of the function directory: `n` 4-byte addresses, each
validated to carry `@Initialize` at that address of `image`. -/
def parsePrologues (image : Bytes) : Nat → Bytes → Except Error (List Nat × Bytes)
  | 0, fb => .ok ([], fb)
  | n + 1, fb =>
    match takeN? 4 fb with
    | none => .error .unexpectedEof
    | some (ab, fb1) =>
      match validate_name image (fromLE ab) PROLOGUE with
      | .error e => .error e
      | .ok _ =>
        match parsePrologues image n fb1 with
        | .ok (as, rest) => .ok (fromLE ab :: as, rest)
        | .error e => .error e

/-- The named-record loop: `n` records of `{u32 addr, u32 count, 2*count
name bytes}`, validated against `image`; names must not start with `@\0`. -/
def parseNamed (image : Bytes) : Nat → Bytes → Except Error (List Nat × Bytes)
  | 0, fb => .ok ([], fb)
  | n + 1, fb =>
    match takeN? 4 fb with
    | none => .error .unexpectedEof
    | some (ab, fb1) =>
      match takeN? 4 fb1 with
      | none => .error .unexpectedEof
      | some (lb, fb2) =>
        match takeN? (2 * fromLE lb) fb2 with
        | none => .error .unexpectedEof
        | some (nm, fb3) =>
          match validate_name image (fromLE ab) nm with
          | .error e => .error e
          | .ok _ =>
            if [64, 0].isPrefixOf nm then .error .badFunctionName
            else
              match parseNamed image n fb3 with
              | .ok (as, rest) => .ok (fromLE ab :: as, rest)
              | .error e => .error e

/-- Consecutive differences with `u32` wrapping subtraction: turns the
sorted address list (with the image-length sentinel appended) into sizes. -/
def diffSizes : List Nat → List Nat
  | a :: b :: r => (b + 2 ^ 32 - a) % 2 ^ 32 :: diffSizes (b :: r)
  | _ => []

/-- The carve loop: for each size, extract and decode the name at the front
of the remaining image, then split off that many bytes as the bytecode. -/
def carve : List Nat → Bytes → Except Error (List Function)
  | [], _ => .ok []
  | size :: rest, image =>
    match extract_name image 0 with
    | .error e => .error e
    | .ok nm =>
      match from_utf16 nm with
      | .error e => .error e
      | .ok name =>
        match takeN? size image with
        | none => .error .unexpectedEof
        | some (bc, image') =>
          match carve rest image' with
          | .ok fs => .ok (⟨name, bc⟩ :: fs)
          | .error e => .error e

/-- `f.name.starts_with("@")` on the UTF-8 byte model. -/
def startsWithAt (name : Bytes) : Bool := [64].isPrefixOf name

/-- The base-function index: every non-`@` name mapped to its index, in
enumeration order (`HashMap` collect; later duplicates override on lookup). -/
def buildBaseFunc (fs : List Function) : List (Bytes × Nat) :=
  ((fs.enum.filter (fun p => ¬ startsWithAt p.2.name)).map (fun p => (p.2.name, p.1)))

/-- The function-directory phase of `CSX::new_`: prologue count and
addresses, zero epilogue, named records, then sort the collected addresses,
convert to sizes against the image-length sentinel and carve the image. -/
def parseDir (image fb : Bytes) : Except Error (List Function) :=
  match takeN? 4 fb with
  | none => .error .unexpectedEof
  | some (pb, fb1) =>
    match parsePrologues image (fromLE pb) fb1 with
    | .error e => .error e
    | .ok (pAddrs, fb2) =>
      match takeN? 4 fb2 with
      | none => .error .unexpectedEof
      | some (eb, fb3) =>
        if fromLE eb ≠ 0 then .error .epilogueNotEmpty
        else
          match takeN? 4 fb3 with
          | none => .error .unexpectedEof
          | some (nb, fb4) =>
            match parseNamed image (fromLE nb) fb4 with
            | .error e => .error e
            | .ok (nAddrs, _) =>
              let sorted := List.insertionSort (· ≤ ·) (pAddrs ++ nAddrs)
              let sizes := diffSizes (sorted ++ [image.length % 2 ^ 32])
              carve sizes image

/-- The tail of `CSX::new_` after the section scan: section sanity checks,
the function directory, and assembly of the image record. -/
def csxFinish (base_hash : Bytes) (base : Bool) (st : Sections) : Except Error CSX :=
  if st.global = [] then .error (.badSection secGlobal)
  else if st.data = [] then .error (.badSection secData)
  else if st.conststr ≠ [] ∧ st.conststr ≠ [0, 0, 0, 0] then .error (.badSection secConststr)
  else if st.linkinf ≠ [] ∧ st.linkinf ≠ List.replicate 16 0 ∧ base then
    .error (.badSection secLinkinf)
  else
    match parseDir st.image st.function with
    | .error e => .error e
    | .ok functions =>
      .ok { base_hash := base_hash
            base_func := if base then buildBaseFunc functions else []
            mods_used := []
            global := st.global
            data := st.data
            functions := functions }

/-- `CSX::new_`: parse a CSX image from bytes (`base` selects base mode).
Follows src/cotopha.rs lines 49-158 step by step; the in-place cursor is
modelled by explicit remainders. -/
def CSX.new_ (csx : Bytes) (base : Bool) : Except Error CSX :=
  let base_hash := if base then sha3_224 csx else hashDefault
  match takeN? 64 csx with
  | none => .error .unexpectedEof
  | some (header, body) =>
    if MAGIC.isPrefixOf header then
      match parseSections body.length body Sections.empty with
      | .error e => .error e
      | .ok st => csxFinish base_hash base st
    else .error .badMagic

/-- `CSX::new`: parse in base mode. -/
def CSX.new (csx : Bytes) : Except Error CSX := CSX.new_ csx true

/-- `CSX::new_mods`: parse in mod mode, then stamp the base's hash. -/
def CSX.new_mods (self : CSX) (csx : Bytes) : Except Error CSX :=
  match CSX.new_ csx false with
  | .ok mods => .ok { mods with base_hash := self.base_hash }
  | .error e => .error e

/-- `cmp_utf16`: lexicographic comparison of 16-bit little-endian code
units (`as_chunks` drops a trailing odd byte); on a tie of the zipped
units the shorter list orders first. -/
def cmp_utf16 (lhs rhs : Bytes) : Ordering :=
  match lhs, rhs with
  | la :: lb :: l, ra :: rb :: r =>
    match compare (la + 256 * lb) (ra + 256 * rb) with
    | .eq => cmp_utf16 l r
    | o => o
  | _ :: _ :: _, _ => .gt
  | _, _ :: _ :: _ => .lt
  | _, _ => .eq

/-- The directory accumulation pass of `rebuild`: walk the functions with a
running (u32-wrapping) address; `@Initialize` goes to the prologue list,
everything else contributes `(address, embedded name bytes)`; `none`
models the `unwrap` panic when a name cannot be extracted. -/
def rebuildDir : List Function → Nat → Option (List Nat × List (Nat × Bytes))
  | [], _ => some ([], [])
  | f :: fs, addr =>
    let next := (addr + f.bytecode.length % 2 ^ 32) % 2 ^ 32
    if f.name = atInitialize then
      (rebuildDir fs next).map (fun pr => (addr :: pr.1, pr.2))
    else
      match extract_name f.bytecode 0 with
      | .ok nm => (rebuildDir fs next).map (fun pr => (pr.1, (addr, nm) :: pr.2))
      | .error _ => none

/-- The stable-sort relation used to model `sort_by(cmp_utf16)`. -/
def leName (p q : Nat × Bytes) : Prop := cmp_utf16 p.2 q.2 ≠ .gt

instance : DecidableRel leName := fun p q => by
  unfold leName; infer_instance

/-- A section on the wire: tag, `u64 LE` body length, body. -/
def sectionBytes (tag : Bytes) (bodyBytes : Bytes) : Bytes :=
  tag ++ toLE 8 (bodyBytes.length % 2 ^ 64) ++ bodyBytes

/-- The concatenated bytecodes — the rebuilt `image` section body. -/
def imageBytes (fs : List Function) : Bytes := (fs.map (fun f => f.bytecode)).flatten

/-- The total byte size of a function list's bytecodes. -/
def totalSize (fs : List Function) : Nat := (fs.map (fun f => f.bytecode.length)).sum

/-- The rebuilt `function` section body: prologue count and addresses, the
zero epilogue count, then the named records. -/
def dirBytes (pro : List Nat) (named : List (Nat × Bytes)) : Bytes :=
  toLE 4 (pro.length % 2 ^ 32) ++ (pro.map (toLE 4)).flatten ++ toLE 4 0 ++
  toLE 4 (named.length % 2 ^ 32) ++
  (named.map (fun an => toLE 4 an.1 ++ toLE 4 (an.2.length / 2 % 2 ^ 32) ++ an.2)).flatten

/-- `CSX::rebuild`: the deterministic serializer.  The Rust code writes a
zero placeholder and patches the length afterwards; emitting the length
directly is the same byte string.  `none` models the `unwrap` panic. -/
def CSX.rebuild (s : CSX) : Option Bytes :=
  (rebuildDir s.functions 0).map (fun pr =>
    let dir := dirBytes pr.1 (List.insertionSort leName pr.2)
    let body :=
      sectionBytes secImage (imageBytes s.functions) ++ sectionBytes secFunction dir ++
      sectionBytes secGlobal s.global ++ sectionBytes secData s.data ++
      sectionBytes secConststr [0, 0, 0, 0] ++ sectionBytes secLinkinf (List.replicate 16 0)
    MAGIC ++ toLE 8 (body.length % 2 ^ 64) ++ body)

/-- Functions with their running offsets, without the u32 wrap — equal to
`funcOffsets` whenever the offsets stay below `2^32`. -/
def plainOffsets : List Function → Nat → List (Nat × Function)
  | [], _ => []
  | f :: fs, a => (a, f) :: plainOffsets fs (a + f.bytecode.length)

/-- `validate_same_hash`. -/
def validate_same_hash (base mods : CSX) : Except Error Unit :=
  if base.base_hash ≠ mods.base_hash then .error .hashMismatch else .ok ()

/-- `validate_items_same_prefix` in the source: the base's `global` and
`data` must each start with the mod's corresponding blob. -/
def validateItemsExtend (base mods : CSX) : Except Error Unit :=
  if ¬ mods.global.isPrefixOf base.global then .error .incompatibleGlobal
  else if ¬ mods.data.isPrefixOf base.data then .error .incompatibleData
  else .ok ()

/-- The fold body of `concat_mods`. -/
def concatStep (mods : CSX) : List CSX → Except Error CSX
  | [] => .ok mods
  | m :: rest =>
    match validate_same_hash mods m with
    | .error e => .error e
    | .ok _ =>
      if mods.global.isPrefixOf m.global then
        if mods.data.isPrefixOf m.data then
          concatStep { mods with global := m.global, data := m.data
                                 functions := mods.functions ++ m.functions } rest
        else if m.data.isPrefixOf mods.data then
          concatStep { mods with global := m.global
                                 functions := mods.functions ++ m.functions } rest
        else .error .incompatibleData
      else if m.global.isPrefixOf mods.global then
        if mods.data.isPrefixOf m.data then
          concatStep { mods with data := m.data
                                 functions := mods.functions ++ m.functions } rest
        else if m.data.isPrefixOf mods.data then
          concatStep { mods with functions := mods.functions ++ m.functions } rest
        else .error .incompatibleData
      else .error .incompatibleGlobal

/-- `CSX::concat_mods`: fold the mods left to right, adopting the longer of
two prefix-comparable blobs and appending function lists; `NoMods` on an
empty input. -/
def CSX.concat_mods : List CSX → Except Error CSX
  | [] => .error .noMods
  | m :: rest => concatStep m rest

/-- The function-application loop of `apply_all_mods`, threading the
mutated base; an error aborts the loop with the state reached so far. -/
def applyFuncs : CSX → List Function → CSX × Option Error
  | st, [] => (st, none)
  | st, f :: fs =>
    if startsWithAt f.name then
      if f.name ≠ atInitialize then (st, some .badFunctionName)
      else applyFuncs { st with functions := st.functions ++ [f] } fs
    else
      if f.name ∈ st.mods_used then (st, some (.modsConflicts f.name))
      else
        let st1 := { st with mods_used := st.mods_used ++ [f.name] }
        match hmGet st1.base_func f.name with
        | some index => applyFuncs { st1 with functions := st1.functions.set index f } fs
        | none => applyFuncs { st1 with functions := st1.functions ++ [f] } fs

/-- `CSX::apply_all_mods`: validate hashes and blob prefixes, overwrite the
blobs, then apply each mod function in order.  Returns the (possibly
partially) mutated base together with the error, if any. -/
def CSX.apply_all_mods (self : CSX) (mods : CSX) : CSX × Option Error :=
  match validate_same_hash self mods with
  | .error e => (self, some e)
  | .ok _ =>
    match validateItemsExtend self mods with
    | .error e => (self, some e)
    | .ok _ =>
      applyFuncs { self with global := mods.global, data := mods.data } mods.functions

/-- The 8-byte CCO magic `Senko\x1a\0\0`. -/
def CCO_MAGIC : Bytes := [83, 101, 110, 107, 111, 26, 0, 0]

/-- The distinguished entry name `" global "` (UTF-8 bytes). -/
def GLOBAL : Bytes := [32, 103, 108, 111, 98, 97, 108, 32]

/-- The distinguished entry name `" data "` (UTF-8 bytes). -/
def DATA : Bytes := [32, 100, 97, 116, 97, 32]

/-- Is `b` a continuation byte `10xxxxxx`? -/
def utf8Cont (b : Nat) : Bool := 0x80 ≤ b ∧ b ≤ 0xBF

/-- The RFC 3629 well-formedness check behind `String::from_utf8`. -/
def isValidUtf8 : Bytes → Bool
  | [] => true
  | b :: r =>
    if b ≤ 0x7F then isValidUtf8 r
    else if 0xC2 ≤ b ∧ b ≤ 0xDF then
      match r with
      | c :: r2 => utf8Cont c && isValidUtf8 r2
      | [] => false
    else if b = 0xE0 then
      match r with
      | c1 :: c2 :: r2 => (0xA0 ≤ c1 && c1 ≤ 0xBF) && utf8Cont c2 && isValidUtf8 r2
      | _ => false
    else if (0xE1 ≤ b ∧ b ≤ 0xEC) ∨ b = 0xEE ∨ b = 0xEF then
      match r with
      | c1 :: c2 :: r2 => utf8Cont c1 && utf8Cont c2 && isValidUtf8 r2
      | _ => false
    else if b = 0xED then
      match r with
      | c1 :: c2 :: r2 => (0x80 ≤ c1 && c1 ≤ 0x9F) && utf8Cont c2 && isValidUtf8 r2
      | _ => false
    else if b = 0xF0 then
      match r with
      | c1 :: c2 :: c3 :: r2 =>
        (0x90 ≤ c1 && c1 ≤ 0xBF) && utf8Cont c2 && utf8Cont c3 && isValidUtf8 r2
      | _ => false
    else if 0xF1 ≤ b ∧ b ≤ 0xF3 then
      match r with
      | c1 :: c2 :: c3 :: r2 => utf8Cont c1 && utf8Cont c2 && utf8Cont c3 && isValidUtf8 r2
      | _ => false
    else if b = 0xF4 then
      match r with
      | c1 :: c2 :: c3 :: r2 =>
        (0x80 ≤ c1 && c1 ≤ 0x8F) && utf8Cont c2 && utf8Cont c3 && isValidUtf8 r2
      | _ => false
    else false

/-- A CCO entry: name (UTF-8 bytes of the Rust `String`), zlib flag,
payload. -/
structure CompactEntry where
  name : Bytes
  zlib : Bool
  data : Bytes
deriving DecidableEq, Repr

/-- The compact archive. -/
structure CompactCO where
  base_hash : Bytes
  entries : List CompactEntry
deriving DecidableEq, Repr

/-- The entry loop of `CompactCO::new`: scan to the first byte whose value
masked with `0xFE` equals `0xC0`; that run is the (UTF-8 validated) name,
the terminator encodes the zlib flag, then a `u32 LE` payload length and
the payload.  `fuel` only forces termination. -/
def ccoParseEntries : Nat → Bytes → Except Error (List CompactEntry)
  | _, [] => .ok []
  | 0, _ :: _ => .error .unexpectedEof
  | fuel + 1, cco =>
    match cco.findIdx? (fun b => b &&& 0xFE == 0xC0) with
    | none => .error .unexpectedEof
    | some size =>
      match takeN? size cco with
      | none => .error .unexpectedEof
      | some (nameBytes, r1) =>
        if isValidUtf8 nameBytes then
          match r1 with
          | [] => .error .unexpectedEof
          | flag :: r2 =>
            match takeN? 4 r2 with
            | none => .error .unexpectedEof
            | some (lenb, r3) =>
              match takeN? (fromLE lenb) r3 with
              | none => .error .unexpectedEof
              | some (d, rest) =>
                match ccoParseEntries fuel rest with
                | .ok es => .ok (⟨nameBytes, flag == 0xC1, d⟩ :: es)
                | .error e => .error e
        else .error .decodeUtf8

/-- `CompactCO::new`: 8-byte magic, 28-byte base hash, then entries to the
end of the stream. -/
def CompactCO.new (cco : Bytes) : Except Error CompactCO :=
  match takeN? (8 + 28) cco with
  | none => .error .unexpectedEof
  | some (header, rest) =>
    if CCO_MAGIC.isPrefixOf header then
      match ccoParseEntries rest.length rest with
      | .ok es => .ok ⟨header.drop 8, es⟩
      | .error e => .error e
    else .error .badMagic

/-- The wire form of one entry: name bytes, flag byte (`0xC1` when zlib
else `0xC0`), `u32 LE` length, payload. -/
def entryBytes (e : CompactEntry) : Bytes :=
  e.name ++ [if e.zlib then 0xC1 else 0xC0] ++ toLE 4 (e.data.length % 2 ^ 32) ++ e.data

/-- `CompactCO::rebuild`: magic, hash, then every entry on the wire. -/
def CompactCO.rebuild (self : CompactCO) : Bytes :=
  CCO_MAGIC ++ self.base_hash ++ (self.entries.map entryBytes).flatten

/-- Modelled from the spec: the binary-diff/patch pair and the zlib codec
are black boxes specified by external contracts only — `bpatch a (bdiff a b)
= b` and `zdec (zenc s) = s` (spec §9).  Operations that use them are
parametrized over any such implementation. -/
structure Codecs where
  bdiff : Bytes → Bytes → Bytes
  bpatch : Bytes → Bytes → Bytes
  zenc : Bytes → Bytes
  zdec : Bytes → Bytes

/-- The two black-box contracts of spec §9. -/
def Codecs.Lawful (c : Codecs) : Prop :=
  (∀ a b, c.bpatch a (c.bdiff a b) = b) ∧ (∀ s, c.zdec (c.zenc s) = s)

/-- The trivial lawful instance: the diff of `(a, b)` is `b` itself and the
codec is the identity. -/
def idCodecs : Codecs := ⟨fun _ b => b, fun _ d => d, id, id⟩

/-- `CompactEntry::make`: diff against the base bytes when they exist,
zlib-encode, and keep the compressed form only when strictly smaller than
the raw mod bytes. -/
def CompactEntry.make (c : Codecs) (name : Bytes) (base_data : Option Bytes)
    (mods_data : Bytes) : CompactEntry :=
  let stream := match base_data with
    | some bd => c.bdiff bd mods_data
    | none => mods_data
  let buf := c.zenc stream
  if buf.length < mods_data.length then ⟨name, true, buf⟩ else ⟨name, false, mods_data⟩

/-- `CompactEntry::unpack`: a raw entry is taken verbatim; a zlib entry is
decoded and, when base bytes exist for its name, patched against them. -/
def CompactEntry.unpack (c : Codecs) (e : CompactEntry) (base : CSX) : Function :=
  if ¬ e.zlib then ⟨e.name, e.data⟩
  else
    let base_data : Option Bytes :=
      if e.name = GLOBAL then some base.global
      else if e.name = DATA then some base.data
      else (hmGet base.base_func e.name).map (fun i => (base.functions.getD i default).bytecode)
    let diff := c.zdec e.data
    match base_data with
    | some bd => ⟨e.name, c.bpatch bd diff⟩
    | none => ⟨e.name, diff⟩

/-- `CompactCO::compress`: validate, then emit the `" global "` entry, the
`" data "` entry, and one entry per mod function (diffed against the
same-named base function when the base has one). -/
def CompactCO.compress (c : Codecs) (base mods : CSX) : Except Error CompactCO :=
  match validate_same_hash base mods with
  | .error e => .error e
  | .ok _ =>
    match validateItemsExtend base mods with
    | .error e => .error e
    | .ok _ =>
      .ok ⟨base.base_hash,
        CompactEntry.make c GLOBAL (some base.global) mods.global ::
        CompactEntry.make c DATA (some base.data) mods.data ::
        mods.functions.map (fun f =>
          CompactEntry.make c f.name
            ((hmGet base.base_func f.name).map (fun i => (base.functions.getD i default).bytecode))
            f.bytecode)⟩

/-- The routing fold of `decompress`: `" global "` and `" data "` entries
set the blobs, every other entry appends a function. -/
def routeEntries (c : Codecs) (base : CSX) (mods : CSX) : List CompactEntry → CSX
  | [] => mods
  | e :: es =>
    let f := CompactEntry.unpack c e base
    if f.name = GLOBAL then routeEntries c base { mods with global := f.bytecode } es
    else if f.name = DATA then routeEntries c base { mods with data := f.bytecode } es
    else routeEntries c base { mods with functions := mods.functions ++ [f] } es

/-- `CompactCO::decompress`: build an empty mod image carrying the archive's
hash, validate it against the base, then unpack and route every entry. -/
def CompactCO.decompress (c : Codecs) (self : CompactCO) (base : CSX) : Except Error CSX :=
  let mods : CSX := ⟨self.base_hash, [], [], [], [], []⟩
  match validate_same_hash base mods with
  | .error e => .error e
  | .ok _ =>
    match validateItemsExtend base mods with
    | .error e => .error e
    | .ok _ => .ok (routeEntries c base mods self.entries)

/-- Decidable form of the data-model invariant (spec §3): a function's
bytecode begins with a well-formed embedded name field that decodes to the
function's name. -/
def wfFieldB (f : Function) : Bool :=
  match extract_name f.bytecode 0 with
  | .ok nb => decide (from_utf16 nb = .ok f.name)
  | .error _ => false

/-- The propositional form of `wfFieldB`. -/
def WfField (f : Function) : Prop := wfFieldB f = true

instance : DecidablePred WfField := fun f => inferInstanceAs (Decidable (wfFieldB f = true))

/-- The embedded name bytes at the front of a function's bytecode (junk on
a malformed field; under `WfField` it is the real field). -/
def nameField (f : Function) : Bytes :=
  match extract_name f.bytecode 0 with
  | .ok nb => nb
  | .error _ => []

/-- `as_chunks::<2>` of `cmp_utf16`: the 16-bit little-endian units of a
byte list, dropping a trailing odd byte. -/
def asChunks16 : Bytes → List Nat
  | a :: b :: r => (a + 256 * b) :: asChunks16 r
  | _ => []

/-- Lexicographic comparison of unit lists (shorter prefix first). -/
def cmpUnits : List Nat → List Nat → Ordering
  | [], [] => .eq
  | [], _ :: _ => .lt
  | _ :: _, [] => .gt
  | u :: us, v :: vs =>
    match compare u v with
    | .eq => cmpUnits us vs
    | o => o

/-- Functions paired with their running (u32-wrapping) image offsets,
starting at `a` — the addresses `rebuild` assigns. -/
def funcOffsets : List Function → Nat → List (Nat × Function)
  | [], _ => []
  | f :: fs, a => (a, f) :: funcOffsets fs ((a + f.bytecode.length % 2 ^ 32) % 2 ^ 32)

/-- The non-`@` names of a function list, in order. -/
def nonAtNames (fs : List Function) : List Bytes :=
  (fs.filter (fun f => ¬ startsWithAt f.name)).map Function.name

/-- Stepwise prefix-comparability of the `global` blobs along the fold of
`concat_mods`, starting from accumulated blob `g`. -/
def globsCompatible : Bytes → List CSX → Bool
  | _, [] => true
  | g, m :: r =>
    if g.isPrefixOf m.global then globsCompatible m.global r
    else if m.global.isPrefixOf g then globsCompatible g r
    else false

/-- Stepwise prefix-comparability of the `data` blobs along the fold. -/
def datasCompatible : Bytes → List CSX → Bool
  | _, [] => true
  | d, m :: r =>
    if d.isPrefixOf m.data then datasCompatible m.data r
    else if m.data.isPrefixOf d then datasCompatible d r
    else false

/-- An accepted base image whose first carved function is named `@Foo`.
The directory's two named records (addresses 13 and 26) are validated, but
the carve derives the first span from the address difference and starts at
offset 0 of the image, which no validation ever looked at: there a complete
`@Foo` name field sits, so the parse yields a well-formed function whose
name starts with `@` yet is not `@Initialize`. -/
def BatFoo : Bytes :=
  MAGIC ++ List.replicate 8 0 ++
  secImage ++ toLE 8 33 ++
    ([4, 4, 0, 0, 0, 64, 0, 70, 0, 111, 0, 111, 0] ++ [4, 1, 0, 0, 0, 67, 0] ++
     List.replicate 6 0 ++ [4, 1, 0, 0, 0, 65, 0]) ++
  secFunction ++ toLE 8 32 ++
    (toLE 4 0 ++ toLE 4 0 ++ toLE 4 2 ++
     (toLE 4 13 ++ toLE 4 1 ++ [67, 0]) ++ (toLE 4 26 ++ toLE 4 1 ++ [65, 0])) ++
  secGlobal ++ toLE 8 1 ++ [7] ++ secData ++ toLE 8 1 ++ [9]

/-- A minimal accepted base image: empty function directory, one-byte
`global` and `data` blobs, no image section. -/
def Bmin : Bytes :=
  MAGIC ++ List.replicate 8 0 ++ secFunction ++ toLE 8 12 ++ List.replicate 12 0 ++
  secGlobal ++ toLE 8 1 ++ [0] ++ secData ++ toLE 8 1 ++ [0]

/-- The parse of `Bmin`. -/
def imgMin : CSX := ⟨sha3_224 Bmin, [], [], [0], [0], []⟩

/-! ### Helper lemmas: byte splitting and little-endian codecs -/

theorem takeN?_eq_some {n : Nat} {l a r : Bytes} (h : takeN? n l = some (a, r)) :
    l = a ++ r ∧ a.length = n := by
  unfold takeN? at h
  split at h
  · next hle =>
    injection h with h
    injection h with h1 h2
    subst h1; subst h2
    exact ⟨(List.take_append_drop n l).symm, List.length_take_of_le hle⟩
  · exact absurd h (by simp)

theorem takeN?_append (a b : Bytes) : takeN? a.length (a ++ b) = some (a, b) := by
  unfold takeN?
  rw [if_pos (by simp), List.take_left, List.drop_left]

theorem takeN?_append_of_le {n : Nat} {l : Bytes} (t : Bytes) (h : n ≤ l.length) :
    takeN? n (l ++ t) = some (l.take n, l.drop n ++ t) := by
  unfold takeN?
  rw [if_pos (by simp; omega), List.take_append_of_le_length h, List.drop_append_of_le_length h]

theorem toLE_length (k n : Nat) : (toLE k n).length = k := by
  induction k generalizing n with
  | zero => rfl
  | succ k ih => simp [toLE, ih]

theorem toLE_lt (k n : Nat) : ∀ x ∈ toLE k n, x < 256 := by
  induction k generalizing n with
  | zero => simp [toLE]
  | succ k ih =>
    intro x hx
    simp only [toLE, List.mem_cons] at hx
    rcases hx with h | h
    · subst h; exact Nat.mod_lt _ (by norm_num)
    · exact ih _ x h

theorem fromLE_toLE (k n : Nat) (h : n < 2 ^ (8 * k)) : fromLE (toLE k n) = n := by
  induction k generalizing n with
  | zero =>
    simp only [Nat.mul_zero, pow_zero, Nat.lt_one_iff] at h
    simp [toLE, fromLE, h]
  | succ k ih =>
    have hdiv : n / 256 < 2 ^ (8 * k) := by
      apply Nat.div_lt_of_lt_mul
      calc n < 2 ^ (8 * (k + 1)) := h
        _ = 2 ^ (8 * k) * 256 := by ring
        _ = 256 * 2 ^ (8 * k) := by ring
    simp only [toLE, fromLE, List.foldr_cons]
    have := ih (n / 256) hdiv
    unfold fromLE at this
    rw [this]
    omega

theorem fromLE_lt (l : Bytes) (h : ∀ x ∈ l, x < 256) : fromLE l < 2 ^ (8 * l.length) := by
  induction l with
  | nil => simp [fromLE]
  | cons b r ih =>
    have hb : b < 256 := h b (by simp)
    have hr := ih (fun x hx => h x (by simp [hx]))
    unfold fromLE at hr ⊢
    simp only [List.foldr_cons, List.length_cons]
    calc b + 256 * List.foldr (fun b acc => b + 256 * acc) 0 r
        < 256 + 256 * List.foldr (fun b acc => b + 256 * acc) 0 r := by omega
      _ ≤ 256 + 256 * (2 ^ (8 * r.length) - 1) := by
          have : List.foldr (fun b acc => b + 256 * acc) 0 r ≤ 2 ^ (8 * r.length) - 1 := by
            have := hr; omega
          omega
      _ = 256 * 2 ^ (8 * r.length) := by
          have : 1 ≤ 2 ^ (8 * r.length) := Nat.one_le_two_pow
          omega
      _ = 2 ^ (8 * (r.length + 1)) := by ring

theorem toLE_fromLE (l : Bytes) (h : ∀ x ∈ l, x < 256) : toLE l.length (fromLE l) = l := by
  induction l with
  | nil => rfl
  | cons b r ih =>
    have hb : b < 256 := h b (by simp)
    unfold fromLE at ih ⊢
    simp only [List.foldr_cons, List.length_cons, toLE]
    have h0 : (b + 256 * List.foldr (fun b acc => b + 256 * acc) 0 r) % 256 = b := by omega
    have h1 : (b + 256 * List.foldr (fun b acc => b + 256 * acc) 0 r) / 256
        = List.foldr (fun b acc => b + 256 * acc) 0 r := by omega
    rw [h0, h1, ih (fun x hx => h x (by simp [hx]))]

theorem isPrefixOf_true (a b : Bytes) : a.isPrefixOf b = true ↔ a <+: b :=
  List.isPrefixOf_iff_prefix

/-! ### Helper lemmas: the apply loop -/

theorem applyFuncs_blobs (st : CSX) (fs : List Function) :
    (applyFuncs st fs).1.global = st.global ∧ (applyFuncs st fs).1.data = st.data ∧
    (applyFuncs st fs).1.base_hash = st.base_hash ∧
    (applyFuncs st fs).1.base_func = st.base_func ∧
    ∀ e, (applyFuncs st fs).2 = some e →
      e = .badFunctionName ∨ ∃ n, e = .modsConflicts n := by
  induction fs generalizing st with
  | nil => exact ⟨rfl, rfl, rfl, rfl, by intro e h; cases h⟩
  | cons f fs ih =>
    unfold applyFuncs
    split
    · split
      · exact ⟨rfl, rfl, rfl, rfl, by intro e h; injection h with h; exact .inl h.symm⟩
      · exact ih _
    · split
      · exact ⟨rfl, rfl, rfl, rfl, by
          intro e h; injection h with h; exact .inr ⟨f.name, h.symm⟩⟩
      · simp only
        rcases h : hmGet st.base_func f.name with _ | i <;> simp only [h] <;> exact ih _

/-- C7: when the base and mod carry the same hash and the mod's `global` and
`data` blobs are each a (possibly strictly shorter) prefix of the base's,
`apply_all_mods` passes the blob checks — its result is never HashMismatch,
IncompatibleGlobal or IncompatibleData — and the resulting base carries the
mod's blobs, even when they are strictly shorter than the base's were. -/
theorem C7_apply_overwrites_blobs (base mods : CSX)
    (hh : base.base_hash = mods.base_hash)
    (hg : mods.global <+: base.global)
    (hd : mods.data <+: base.data) :
    (CSX.apply_all_mods base mods).1.global = mods.global ∧
    (CSX.apply_all_mods base mods).1.data = mods.data ∧
    (CSX.apply_all_mods base mods).2 ≠ some .hashMismatch ∧
    (CSX.apply_all_mods base mods).2 ≠ some .incompatibleGlobal ∧
    (CSX.apply_all_mods base mods).2 ≠ some .incompatibleData := by
  unfold CSX.apply_all_mods validate_same_hash validateItemsExtend
  rw [if_neg (by simp [hh]), if_neg (by simp [(isPrefixOf_true _ _).2 hg]),
    if_neg (by simp [(isPrefixOf_true _ _).2 hd])]
  simp only
  obtain ⟨h1, h2, -, -, h5⟩ :=
    applyFuncs_blobs { base with global := mods.global, data := mods.data } mods.functions
  refine ⟨h1, h2, ?_, ?_, ?_⟩ <;>
    · intro hcon
      rcases h5 _ hcon with h | ⟨n, h⟩ <;> simp at h

/-- C7 witness: a concrete strictly-shorter prefix pair. -/
theorem C7_witness :
    (CSX.apply_all_mods ⟨[0], [], [], [1, 2], [3, 4], []⟩
        ⟨[0], [], [], [1], [3], []⟩).1.global = [1] ∧
    (CSX.apply_all_mods ⟨[0], [], [], [1, 2], [3, 4], []⟩
        ⟨[0], [], [], [1], [3], []⟩).1.data = [3] := by
  have := C7_apply_overwrites_blobs ⟨[0], [], [], [1, 2], [3, 4], []⟩
    ⟨[0], [], [], [1], [3], []⟩ (by decide) ⟨[2], by decide⟩ ⟨[4], by decide⟩
  exact ⟨this.1, this.2.1⟩

/-- C2 counterexample: a `ModsConflicts` failure that leaves the
caller-provided base mutated — its `global` blob has been overwritten with
the mod's strictly shorter blob and one mod function has been appended. -/
theorem C2_counterexample :
    (CSX.apply_all_mods ⟨[0], [], [], [1, 2], [1], []⟩
        ⟨[0], [], [], [1], [1], [⟨[65], []⟩, ⟨[65], []⟩]⟩).2 =
      some (.modsConflicts [65]) ∧
    (CSX.apply_all_mods ⟨[0], [], [], [1, 2], [1], []⟩
        ⟨[0], [], [], [1], [1], [⟨[65], []⟩, ⟨[65], []⟩]⟩).1 ≠
      ⟨[0], [], [], [1, 2], [1], []⟩ := by decide

/-- C2 amended: when `apply_all_mods` fails with HashMismatch,
IncompatibleGlobal or IncompatibleData — the errors raised before any
mutation — the caller-provided base is left unchanged in all fields; a
ModsConflicts or BadFunctionName failure, by contrast, occurs after the
blobs were overwritten and earlier functions applied, so it may leave the
base partially updated (as the counterexample shows). -/
theorem C2_early_errors_leave_base_unchanged (base mods : CSX) (e : Error)
    (he : e = .hashMismatch ∨ e = .incompatibleGlobal ∨ e = .incompatibleData)
    (hr : (CSX.apply_all_mods base mods).2 = some e) :
    (CSX.apply_all_mods base mods).1 = base := by
  unfold CSX.apply_all_mods validate_same_hash validateItemsExtend at hr ⊢
  by_cases h1 : base.base_hash ≠ mods.base_hash
  · simp only [if_pos h1]
  · simp only [if_neg h1] at hr ⊢
    by_cases h2 : ¬ mods.global.isPrefixOf base.global
    · simp only [if_pos h2]
    · simp only [if_neg h2] at hr ⊢
      by_cases h3 : ¬ mods.data.isPrefixOf base.data
      · simp only [if_pos h3]
      · simp only [if_neg h3] at hr ⊢
        exfalso
        obtain ⟨-, -, -, -, h5⟩ :=
          applyFuncs_blobs { base with global := mods.global, data := mods.data } mods.functions
        rcases h5 _ hr with h | ⟨n, h⟩ <;> subst h <;>
          rcases he with h | h | h <;> simp at h

/-- C2 amended witness: a hash mismatch leaves the base untouched. -/
theorem C2_witness :
    (CSX.apply_all_mods ⟨[0], [], [], [1], [1], []⟩ ⟨[9], [], [], [1], [1], []⟩).1 =
      ⟨[0], [], [], [1], [1], []⟩ :=
  C2_early_errors_leave_base_unchanged ⟨[0], [], [], [1], [1], []⟩ ⟨[9], [], [], [1], [1], []⟩
    .hashMismatch (.inl rfl) (by decide)

/-! ### Helper lemmas: conflict detection -/

theorem applyFuncs_conflict (fs : List Function) (st : CSX)
    (hat : ∀ f ∈ fs, startsWithAt f.name → f.name = atInitialize) :
    ((∃ n, (applyFuncs st fs).2 = some (.modsConflicts n)) ↔
      ¬ ((nonAtNames fs).Nodup ∧ ∀ n ∈ nonAtNames fs, n ∉ st.mods_used)) ∧
    ((applyFuncs st fs).2 = none →
      (applyFuncs st fs).1.mods_used = st.mods_used ++ nonAtNames fs) := by
  induction fs generalizing st with
  | nil =>
    constructor
    · constructor
      · intro ⟨n, h⟩; cases h
      · intro h
        exact absurd ⟨by simp [nonAtNames], fun n hn => by simp [nonAtNames] at hn⟩ h
    · intro _; simp [applyFuncs, nonAtNames]
  | cons f fs ih =>
    unfold applyFuncs
    by_cases hsw : startsWithAt f.name
    · have hinit : f.name = atInitialize := hat f (by simp) hsw
      rw [if_pos hsw, if_neg (by simp [hinit])]
      have hnames : nonAtNames (f :: fs) = nonAtNames fs := by
        simp [nonAtNames, List.filter_cons, hsw]
      rw [hnames]
      exact ih _ (fun g hg => hat g (by simp [hg]))
    · rw [if_neg hsw]
      have hnames : nonAtNames (f :: fs) = f.name :: nonAtNames fs := by
        simp [nonAtNames, List.filter_cons, hsw]
      rw [hnames]
      by_cases hmem : f.name ∈ st.mods_used
      · rw [if_pos hmem]
        refine ⟨⟨fun _ => ?_, fun _ => ⟨f.name, rfl⟩⟩, fun h => by cases h⟩
        intro ⟨_, hall⟩
        exact hall f.name (by simp) hmem
      · rw [if_neg hmem]
        simp only
        have hstep : ∀ st1 : CSX, st1.mods_used = st.mods_used ++ [f.name] →
            ((∃ n, (applyFuncs st1 fs).2 = some (.modsConflicts n)) ↔
              ¬ ((f.name :: nonAtNames fs).Nodup ∧
                 ∀ n ∈ f.name :: nonAtNames fs, n ∉ st.mods_used)) ∧
            ((applyFuncs st1 fs).2 = none →
              (applyFuncs st1 fs).1.mods_used =
                st.mods_used ++ f.name :: nonAtNames fs) := by
          intro st1 hused
          obtain ⟨ih1, ih2⟩ := ih st1 (fun g hg => hat g (by simp [hg]))
          constructor
          · rw [ih1, hused]
            constructor
            · intro hneg hpos
              apply hneg
              obtain ⟨hnd, hall⟩ := hpos
              refine ⟨(List.nodup_cons.1 hnd).2, ?_⟩
              intro n hn
              simp only [List.mem_append, List.mem_singleton]
              push_neg
              exact ⟨hall n (by simp [hn]), fun hq => (List.nodup_cons.1 hnd).1 (hq ▸ hn)⟩
            · intro hneg hpos
              apply hneg
              obtain ⟨hnd, hall⟩ := hpos
              rw [List.nodup_cons]
              refine ⟨⟨?_, hnd⟩, ?_⟩
              · intro hmem2
                have := hall f.name (by simp [hmem2])
                simp at this
              · intro n hn
                rcases List.mem_cons.1 hn with h | h
                · exact h ▸ hmem
                · have := hall n h
                  simp only [List.mem_append, List.mem_singleton] at this
                  push_neg at this
                  exact this.1
          · intro hnone
            rw [ih2 hnone, hused]
            simp
        rcases hget : hmGet st.base_func f.name with _ | i
        · exact hstep _ rfl
        · exact hstep _ rfl

/-- C6 counterexample: a base/mod pair where a non-`@` name occurs twice in
the applied mod functions, yet `apply_all_mods` fails with HashMismatch —
the hash gate preempts the conflict check, so the claimed "if and only if"
fails as stated. -/
theorem C6_counterexample :
    (CSX.apply_all_mods ⟨[0], [], [], [1], [1], []⟩
        ⟨[1], [], [], [1], [1], [⟨[65], []⟩, ⟨[65], []⟩]⟩).2 = some .hashMismatch ∧
    (CSX.apply_all_mods ⟨[0], [], [], [1], [1], []⟩
        ⟨[1], [], [], [1], [1], [⟨[65], []⟩, ⟨[65], []⟩]⟩).2 ≠
      some (.modsConflicts [65]) := by decide

/-- C6 amended: provided the hash and blob-prefix validations pass (an
earlier HashMismatch / IncompatibleGlobal / IncompatibleData otherwise
preempts the conflict check) and every `@`-prefixed name in the mod is
exactly `@Initialize`, `apply_all_mods` fails with ModsConflicts iff some
non-`@` name is duplicated among the mod's functions or was already in the
base's `mods_used` set from earlier applications; on success `mods_used`
grows by exactly the mod's non-`@` names, which yields the across-calls
reading of the claim. -/
theorem C6_conflict_iff (base mods : CSX)
    (hh : base.base_hash = mods.base_hash)
    (hg : mods.global <+: base.global)
    (hd : mods.data <+: base.data)
    (hat : ∀ f ∈ mods.functions, startsWithAt f.name → f.name = atInitialize) :
    ((∃ n, (CSX.apply_all_mods base mods).2 = some (.modsConflicts n)) ↔
      ¬ ((nonAtNames mods.functions).Nodup ∧
         ∀ n ∈ nonAtNames mods.functions, n ∉ base.mods_used)) ∧
    ((CSX.apply_all_mods base mods).2 = none →
      (CSX.apply_all_mods base mods).1.mods_used =
        base.mods_used ++ nonAtNames mods.functions) := by
  unfold CSX.apply_all_mods validate_same_hash validateItemsExtend
  rw [if_neg (by simp [hh]), if_neg (by simp [(isPrefixOf_true _ _).2 hg]),
    if_neg (by simp [(isPrefixOf_true _ _).2 hd])]
  simp only
  exact applyFuncs_conflict mods.functions { base with global := mods.global, data := mods.data }
    hat

/-- C6 amended witness: two same-named functions conflict; a single fresh
name is accepted and recorded in `mods_used`. -/
theorem C6_witness :
    (∃ n, (CSX.apply_all_mods ⟨[0], [], [], [1], [1], []⟩
        ⟨[0], [], [], [1], [1], [⟨[65], []⟩, ⟨[65], []⟩]⟩).2 =
      some (.modsConflicts n)) ∧
    (CSX.apply_all_mods ⟨[0], [], [], [1], [1], []⟩
        ⟨[0], [], [], [1], [1], [⟨[66], []⟩]⟩).1.mods_used = [[66]] := by
  constructor
  · exact (C6_conflict_iff ⟨[0], [], [], [1], [1], []⟩
      ⟨[0], [], [], [1], [1], [⟨[65], []⟩, ⟨[65], []⟩]⟩ (by decide)
      (List.prefix_refl _) (List.prefix_refl _) (by decide)).1.2 (by decide)
  · exact (C6_conflict_iff ⟨[0], [], [], [1], [1], []⟩
      ⟨[0], [], [], [1], [1], [⟨[66], []⟩]⟩ (by decide)
      (List.prefix_refl _) (List.prefix_refl _) (by decide)).2 (by decide)

/-! ### Helper lemmas: concat_mods -/

theorem concatStep_ok (ms : List CSX) (acc : CSX)
    (hh : ∀ x ∈ ms, x.base_hash = acc.base_hash)
    (hg : globsCompatible acc.global ms = true)
    (hd : datasCompatible acc.data ms = true) :
    ∃ r, concatStep acc ms = .ok r ∧
      r.base_hash = acc.base_hash ∧
      acc.global <+: r.global ∧ (∀ x ∈ ms, x.global <+: r.global) ∧
      (r.global = acc.global ∨ ∃ x ∈ ms, r.global = x.global) ∧
      acc.data <+: r.data ∧ (∀ x ∈ ms, x.data <+: r.data) ∧
      (r.data = acc.data ∨ ∃ x ∈ ms, r.data = x.data) ∧
      r.functions = acc.functions ++ (ms.map CSX.functions).flatten := by
  induction ms generalizing acc with
  | nil =>
    exact ⟨acc, rfl, rfl, List.prefix_refl _, by simp, .inl rfl,
      List.prefix_refl _, by simp, .inl rfl, by simp⟩
  | cons m rest ih =>
    unfold globsCompatible at hg
    unfold datasCompatible at hd
    unfold concatStep
    unfold validate_same_hash
    rw [if_neg (by simp [hh m (by simp)])]
    simp only
    by_cases hg1 : acc.global.isPrefixOf m.global
    · rw [if_pos hg1] at hg ⊢
      by_cases hd1 : acc.data.isPrefixOf m.data
      · rw [if_pos hd1] at hd ⊢
        obtain ⟨r, hr, rh, rg1, rg2, rg3, rd1, rd2, rd3, rf⟩ :=
          ih { acc with global := m.global, data := m.data
                        functions := acc.functions ++ m.functions }
            (fun x hx => hh x (by simp [hx])) hg hd
        refine ⟨r, hr, rh, ?_, ?_, ?_, ?_, ?_, ?_, ?_⟩
        · exact ((isPrefixOf_true _ _).1 hg1).trans rg1
        · intro x hx
          rcases List.mem_cons.1 hx with h | h
          · exact h ▸ rg1
          · exact rg2 x h
        · rcases rg3 with h | ⟨x, hx, h⟩
          · exact .inr ⟨m, by simp, h⟩
          · exact .inr ⟨x, by simp [hx], h⟩
        · exact ((isPrefixOf_true _ _).1 hd1).trans rd1
        · intro x hx
          rcases List.mem_cons.1 hx with h | h
          · exact h ▸ rd1
          · exact rd2 x h
        · rcases rd3 with h | ⟨x, hx, h⟩
          · exact .inr ⟨m, by simp, h⟩
          · exact .inr ⟨x, by simp [hx], h⟩
        · simp [rf]
      · rw [if_neg hd1] at hd ⊢
        have hd2 : m.data.isPrefixOf acc.data := by
          by_contra hcon
          rw [if_neg hcon] at hd
          exact Bool.false_ne_true hd
        rw [if_pos hd2] at hd ⊢
        obtain ⟨r, hr, rh, rg1, rg2, rg3, rd1, rd2, rd3, rf⟩ :=
          ih { acc with global := m.global
                        functions := acc.functions ++ m.functions }
            (fun x hx => hh x (by simp [hx])) hg hd
        refine ⟨r, hr, rh, ?_, ?_, ?_, rd1, ?_, ?_, ?_⟩
        · exact ((isPrefixOf_true _ _).1 hg1).trans rg1
        · intro x hx
          rcases List.mem_cons.1 hx with h | h
          · exact h ▸ rg1
          · exact rg2 x h
        · rcases rg3 with h | ⟨x, hx, h⟩
          · exact .inr ⟨m, by simp, h⟩
          · exact .inr ⟨x, by simp [hx], h⟩
        · intro x hx
          rcases List.mem_cons.1 hx with h | h
          · exact h ▸ (((isPrefixOf_true _ _).1 hd2).trans rd1)
          · exact rd2 x h
        · rcases rd3 with h | ⟨x, hx, h⟩
          · exact .inl h
          · exact .inr ⟨x, by simp [hx], h⟩
        · simp [rf]
    · rw [if_neg hg1] at hg ⊢
      have hg2 : m.global.isPrefixOf acc.global := by
        by_contra hcon
        rw [if_neg hcon] at hg
        exact Bool.false_ne_true hg
      rw [if_pos hg2] at hg ⊢
      by_cases hd1 : acc.data.isPrefixOf m.data
      · rw [if_pos hd1] at hd ⊢
        obtain ⟨r, hr, rh, rg1, rg2, rg3, rd1, rd2, rd3, rf⟩ :=
          ih { acc with data := m.data
                        functions := acc.functions ++ m.functions }
            (fun x hx => hh x (by simp [hx])) hg hd
        refine ⟨r, hr, rh, rg1, ?_, ?_, ?_, ?_, ?_, ?_⟩
        · intro x hx
          rcases List.mem_cons.1 hx with h | h
          · exact h ▸ (((isPrefixOf_true _ _).1 hg2).trans rg1)
          · exact rg2 x h
        · rcases rg3 with h | ⟨x, hx, h⟩
          · exact .inl h
          · exact .inr ⟨x, by simp [hx], h⟩
        · exact ((isPrefixOf_true _ _).1 hd1).trans rd1
        · intro x hx
          rcases List.mem_cons.1 hx with h | h
          · exact h ▸ rd1
          · exact rd2 x h
        · rcases rd3 with h | ⟨x, hx, h⟩
          · exact .inr ⟨m, by simp, h⟩
          · exact .inr ⟨x, by simp [hx], h⟩
        · simp [rf]
      · rw [if_neg hd1] at hd ⊢
        have hd2 : m.data.isPrefixOf acc.data := by
          by_contra hcon
          rw [if_neg hcon] at hd
          exact Bool.false_ne_true hd
        rw [if_pos hd2] at hd ⊢
        obtain ⟨r, hr, rh, rg1, rg2, rg3, rd1, rd2, rd3, rf⟩ :=
          ih { acc with functions := acc.functions ++ m.functions }
            (fun x hx => hh x (by simp [hx])) hg hd
        refine ⟨r, hr, rh, rg1, ?_, ?_, rd1, ?_, ?_, ?_⟩
        · intro x hx
          rcases List.mem_cons.1 hx with h | h
          · exact h ▸ (((isPrefixOf_true _ _).1 hg2).trans rg1)
          · exact rg2 x h
        · rcases rg3 with h | ⟨x, hx, h⟩
          · exact .inl h
          · exact .inr ⟨x, by simp [hx], h⟩
        · intro x hx
          rcases List.mem_cons.1 hx with h | h
          · exact h ▸ (((isPrefixOf_true _ _).1 hd2).trans rd1)
          · exact rd2 x h
        · rcases rd3 with h | ⟨x, hx, h⟩
          · exact .inl h
          · exact .inr ⟨x, by simp [hx], h⟩
        · simp [rf]

theorem concatStep_err (ms : List CSX) (acc : CSX)
    (hh : ∀ x ∈ ms, x.base_hash = acc.base_hash)
    (hfail : ¬ (globsCompatible acc.global ms = true ∧ datasCompatible acc.data ms = true)) :
    concatStep acc ms = .error .incompatibleGlobal ∨
    concatStep acc ms = .error .incompatibleData := by
  induction ms generalizing acc with
  | nil => exact absurd ⟨rfl, rfl⟩ hfail
  | cons m rest ih =>
    unfold globsCompatible datasCompatible at hfail
    unfold concatStep validate_same_hash
    rw [if_neg (by simp [hh m (by simp)])]
    simp only
    by_cases hg1 : acc.global.isPrefixOf m.global
    · rw [if_pos hg1] at hfail ⊢
      by_cases hd1 : acc.data.isPrefixOf m.data
      · rw [if_pos hd1] at hfail ⊢
        exact ih _ (fun x hx => hh x (by simp [hx])) hfail
      · rw [if_neg hd1] at hfail ⊢
        by_cases hd2 : m.data.isPrefixOf acc.data
        · rw [if_pos hd2] at hfail ⊢
          exact ih _ (fun x hx => hh x (by simp [hx])) hfail
        · rw [if_neg hd2]
          exact .inr rfl
    · rw [if_neg hg1] at hfail ⊢
      by_cases hg2 : m.global.isPrefixOf acc.global
      · rw [if_pos hg2] at hfail ⊢
        by_cases hd1 : acc.data.isPrefixOf m.data
        · rw [if_pos hd1] at hfail ⊢
          exact ih _ (fun x hx => hh x (by simp [hx])) hfail
        · rw [if_neg hd1] at hfail ⊢
          by_cases hd2 : m.data.isPrefixOf acc.data
          · rw [if_pos hd2] at hfail ⊢
            exact ih _ (fun x hx => hh x (by simp [hx])) hfail
          · rw [if_neg hd2]
            exact .inr rfl
      · rw [if_neg hg2]
        exact .inl rfl

/-- C5: for a non-empty mod sequence with equal base hashes whose `global`
and `data` blobs are stepwise prefix-comparable along the fold,
`concat_mods` succeeds; the result's `global` (resp. `data`) has every
input's blob as a prefix and equals some input's blob (hence the longest),
and the function list is the concatenation of the inputs' lists in order.
An empty input fails with NoMods, and a non-comparable pair fails with
IncompatibleGlobal or IncompatibleData. -/
theorem C5_concat_mods_spec :
    (∀ (m : CSX) (ms : List CSX),
      (∀ x ∈ m :: ms, x.base_hash = m.base_hash) →
      globsCompatible m.global ms = true →
      datasCompatible m.data ms = true →
      ∃ r, CSX.concat_mods (m :: ms) = .ok r ∧
        (∀ x ∈ m :: ms, x.global <+: r.global) ∧ (∃ x ∈ m :: ms, r.global = x.global) ∧
        (∀ x ∈ m :: ms, x.data <+: r.data) ∧ (∃ x ∈ m :: ms, r.data = x.data) ∧
        r.functions = ((m :: ms).map CSX.functions).flatten ∧
        r.base_hash = m.base_hash) ∧
    CSX.concat_mods [] = .error .noMods ∧
    (∀ (m : CSX) (ms : List CSX),
      (∀ x ∈ m :: ms, x.base_hash = m.base_hash) →
      ¬ (globsCompatible m.global ms = true ∧ datasCompatible m.data ms = true) →
      CSX.concat_mods (m :: ms) = .error .incompatibleGlobal ∨
      CSX.concat_mods (m :: ms) = .error .incompatibleData) := by
  refine ⟨?_, rfl, ?_⟩
  · intro m ms hh hg hd
    obtain ⟨r, hr, rh, rg1, rg2, rg3, rd1, rd2, rd3, rf⟩ :=
      concatStep_ok ms m (fun x hx => hh x (by simp [hx])) hg hd
    refine ⟨r, hr, ?_, ?_, ?_, ?_, by simpa using rf, rh⟩
    · intro x hx
      rcases List.mem_cons.1 hx with h | h
      · exact h ▸ rg1
      · exact rg2 x h
    · rcases rg3 with h | ⟨x, hx, h⟩
      · exact ⟨m, by simp, h⟩
      · exact ⟨x, by simp [hx], h⟩
    · intro x hx
      rcases List.mem_cons.1 hx with h | h
      · exact h ▸ rd1
      · exact rd2 x h
    · rcases rd3 with h | ⟨x, hx, h⟩
      · exact ⟨m, by simp, h⟩
      · exact ⟨x, by simp [hx], h⟩
  · intro m ms hh hfail
    exact concatStep_err ms m (fun x hx => hh x (by simp [hx])) hfail

/-- C5 witness: spec §8 scenario 4 — globals `[1,2,3]`, `[1,2,3,4]`,
`[1,2,3,4,5]` concatenate to the longest blob. -/
theorem C5_witness :
    ∃ r, CSX.concat_mods
        [⟨[0], [], [], [1, 2, 3], [1], []⟩,
         ⟨[0], [], [], [1, 2, 3, 4], [1], []⟩,
         ⟨[0], [], [], [1, 2, 3, 4, 5], [1], []⟩] = .ok r ∧
      (∀ x ∈ [⟨[0], [], [], [1, 2, 3], [1], []⟩,
              ⟨[0], [], [], [1, 2, 3, 4], [1], []⟩,
              (⟨[0], [], [], [1, 2, 3, 4, 5], [1], []⟩ : CSX)], x.global <+: r.global) ∧
      (∃ x ∈ [⟨[0], [], [], [1, 2, 3], [1], []⟩,
              ⟨[0], [], [], [1, 2, 3, 4], [1], []⟩,
              (⟨[0], [], [], [1, 2, 3, 4, 5], [1], []⟩ : CSX)], r.global = x.global) := by
  obtain ⟨r, hr, h1, h2, -, -, -, -⟩ :=
    C5_concat_mods_spec.1 ⟨[0], [], [], [1, 2, 3], [1], []⟩
      [⟨[0], [], [], [1, 2, 3, 4], [1], []⟩, ⟨[0], [], [], [1, 2, 3, 4, 5], [1], []⟩]
      (by decide) (by decide) (by decide)
  exact ⟨r, hr, h1, h2⟩

/-! ### Helper lemmas: the CCO frame -/

theorem take_getElem_drop (l : Bytes) (i : Nat) (h : i < l.length) :
    l.take i ++ l[i] :: l.drop (i + 1) = l := by
  induction l generalizing i with
  | nil => simp at h
  | cons a as ih =>
    cases i with
    | zero => simp
    | succ j =>
      simp only [List.take_succ_cons, List.getElem_cons_succ, List.drop_succ_cons,
        List.cons_append]
      rw [ih j (Nat.lt_of_succ_lt_succ h)]

set_option maxRecDepth 4000 in
theorem flagByte_cases : ∀ b < 256, (b &&& 0xFE == 0xC0) = true → b = 0xC0 ∨ b = 0xC1 := by
  decide

theorem ccoEntries_roundtrip (fuel : Nat) : ∀ (l : Bytes) (es : List CompactEntry),
    (∀ b ∈ l, b < 256) → ccoParseEntries fuel l = .ok es →
    (es.map entryBytes).flatten = l := by
  induction fuel with
  | zero =>
    intro l es hb hp
    cases l with
    | nil =>
      unfold ccoParseEntries at hp
      injection hp with hp
      rw [← hp]; rfl
    | cons x xs => exact absurd hp (by unfold ccoParseEntries; simp)
  | succ fuel ih =>
    intro l es hb hp
    cases l with
    | nil =>
      unfold ccoParseEntries at hp
      injection hp with hp
      rw [← hp]; rfl
    | cons x xs =>
      unfold ccoParseEntries at hp
      rcases hfind : List.findIdx? (fun b => b &&& 0xFE == 0xC0) (x :: xs) with _ | size
      · simp [hfind] at hp
      · simp only [hfind] at hp
        obtain ⟨hlt, hpflag, -⟩ := List.findIdx?_eq_some_iff_getElem.1 hfind
        have htake : takeN? size (x :: xs) = some ((x :: xs).take size, (x :: xs).drop size) := by
          unfold takeN?
          rw [if_pos (Nat.le_of_lt hlt)]
        simp only [htake] at hp
        rcases hvalid : isValidUtf8 ((x :: xs).take size) with _ | _
        · simp [hvalid] at hp
        · simp only [hvalid, if_true] at hp
          have hdrop : (x :: xs).drop size = (x :: xs)[size] :: xs.drop size := by
            rw [List.drop_eq_getElem_cons hlt, List.drop_succ_cons]
          rw [hdrop] at hp
          rcases hlen : takeN? 4 (xs.drop size) with _ | ⟨lenb, r3⟩
          · simp [hlen] at hp
          · simp only [hlen] at hp
            rcases hdat : takeN? (fromLE lenb) r3 with _ | ⟨d, rest⟩
            · simp [hdat] at hp
            · simp only [hdat] at hp
              rcases hrec : ccoParseEntries fuel rest with e | es'
              · simp [hrec] at hp
              · simp only [hrec] at hp
                injection hp with hp
                subst hp
                obtain ⟨hl3, hlen4⟩ := takeN?_eq_some hlen
                obtain ⟨hr3, hdlen⟩ := takeN?_eq_some hdat
                have hsub1 : ∀ b ∈ xs.drop size, b < 256 :=
                  fun b h => hb b (List.mem_cons_of_mem _ (List.drop_subset _ _ h))
                have hsubl : ∀ b ∈ lenb, b < 256 :=
                  fun b h => hsub1 b (hl3 ▸ List.mem_append_left _ h)
                have hsubr : ∀ b ∈ rest, b < 256 := fun b h =>
                  hsub1 b (hl3 ▸ List.mem_append_right _ (hr3 ▸ List.mem_append_right _ h))
                have hflag256 : (x :: xs)[size] < 256 := hb _ (List.getElem_mem hlt)
                have hlenval : fromLE lenb < 2 ^ 32 := by
                  have := fromLE_lt lenb hsubl
                  rw [hlen4] at this
                  exact this
                simp only [List.map_cons, List.flatten_cons, entryBytes]
                have hflagbyte :
                    (if ((x :: xs)[size] == 0xC1) = true then (0xC1 : Nat) else 0xC0) =
                      (x :: xs)[size] := by
                  rcases flagByte_cases _ hflag256 hpflag with h | h <;> rw [h] <;> decide
                have hlenbytes : toLE 4 (d.length % 2 ^ 32) = lenb := by
                  rw [hdlen, Nat.mod_eq_of_lt hlenval, ← hlen4, toLE_fromLE lenb hsubl]
                rw [hflagbyte, hlenbytes, ih rest es' hsubr hrec]
                simp only [List.append_assoc]
                rw [← hr3, ← hl3, List.singleton_append, ← List.drop_succ_cons]
                exact take_getElem_drop _ _ hlt

/-- C8: for every byte string accepted by `CompactCO::new`, `rebuild` of the
parse result reproduces the input byte-for-byte. -/
theorem C8_cco_frame_roundtrip (C : Bytes) (P : CompactCO)
    (hb : ∀ b ∈ C, b < 256) (hp : CompactCO.new C = .ok P) :
    P.rebuild = C := by
  unfold CompactCO.new at hp
  rcases htake : takeN? 36 C with _ | ⟨header, rest⟩
  · simp [htake] at hp
  · simp only [htake] at hp
    rcases hmagic : CCO_MAGIC.isPrefixOf header with _ | _
    · simp [hmagic] at hp
    · simp only [hmagic, if_true] at hp
      rcases hrec : ccoParseEntries rest.length rest with e | es
      · simp [hrec] at hp
      · simp only [hrec] at hp
        injection hp with hp
        subst hp
        obtain ⟨hC, hhlen⟩ := takeN?_eq_some htake
        have hsubr : ∀ b ∈ rest, b < 256 := fun b h =>
          hb b (hC ▸ List.mem_append_right _ h)
        have hmag : header = CCO_MAGIC ++ header.drop 8 := by
          obtain ⟨t, ht⟩ := (isPrefixOf_true _ _).1 hmagic
          rw [← ht]
          have : CCO_MAGIC.length = 8 := rfl
          rw [← this, List.drop_left]
        unfold CompactCO.rebuild
        simp only
        rw [ccoEntries_roundtrip rest.length rest es hsubr hrec, hC, ← hmag]

/-- C8 witness: a concrete two-entry archive round-trips. -/
theorem C8_witness :
    (CompactCO.new (CCO_MAGIC ++ List.replicate 28 1 ++
        ([65] ++ [0xC0] ++ toLE 4 2 ++ [5, 6]) ++
        ([66] ++ [0xC1] ++ toLE 4 1 ++ [7]))).map CompactCO.rebuild =
      .ok (CCO_MAGIC ++ List.replicate 28 1 ++
        ([65] ++ [0xC0] ++ toLE 4 2 ++ [5, 6]) ++
        ([66] ++ [0xC1] ++ toLE 4 1 ++ [7])) := by
  have hok : CompactCO.new (CCO_MAGIC ++ List.replicate 28 1 ++
      ([65] ++ [0xC0] ++ toLE 4 2 ++ [5, 6]) ++
      ([66] ++ [0xC1] ++ toLE 4 1 ++ [7])) =
      .ok ⟨List.replicate 28 1,
        [⟨[65], false, [5, 6]⟩, ⟨[66], true, [7]⟩]⟩ := by decide
  rw [hok, Except.map,
    C8_cco_frame_roundtrip _ _ (by decide) hok]

/-! ### Helper lemmas: compress / decompress -/

theorem idCodecs_lawful : idCodecs.Lawful :=
  ⟨fun _ _ => rfl, fun _ => rfl⟩

theorem unpack_make_agree (c : Codecs) (hc : c.Lawful) (base : CSX) (name : Bytes)
    (bd : Option Bytes) (md : Bytes)
    (hbd : (if name = GLOBAL then some base.global
            else if name = DATA then some base.data
            else (hmGet base.base_func name).map
              (fun i => (base.functions.getD i default).bytecode)) = bd) :
    CompactEntry.unpack c (CompactEntry.make c name bd md) base = ⟨name, md⟩ := by
  cases bd with
  | some b =>
    unfold CompactEntry.make
    dsimp only
    by_cases hz : (c.zenc (c.bdiff b md)).length < md.length
    · rw [if_pos hz]
      unfold CompactEntry.unpack
      dsimp only
      rw [if_neg (by simp), hbd]
      simp only [hc.2, hc.1]
    · rw [if_neg hz]
      unfold CompactEntry.unpack
      simp
  | none =>
    unfold CompactEntry.make
    dsimp only
    by_cases hz : (c.zenc md).length < md.length
    · rw [if_pos hz]
      unfold CompactEntry.unpack
      dsimp only
      rw [if_neg (by simp), hbd]
      simp only [hc.2]
    · rw [if_neg hz]
      unfold CompactEntry.unpack
      simp

theorem routeEntries_functions (c : Codecs) (hc : c.Lawful) (base : CSX)
    (fs : List Function) (st : CSX)
    (hn : ∀ f ∈ fs, f.name ≠ GLOBAL ∧ f.name ≠ DATA) :
    routeEntries c base st (fs.map (fun f =>
      CompactEntry.make c f.name
        ((hmGet base.base_func f.name).map (fun i => (base.functions.getD i default).bytecode))
        f.bytecode)) = { st with functions := st.functions ++ fs } := by
  induction fs generalizing st with
  | nil => simp [routeEntries]
  | cons f fs ih =>
    obtain ⟨hng, hnd⟩ := hn f (by simp)
    simp only [List.map_cons]
    unfold routeEntries
    rw [unpack_make_agree c hc base f.name _ f.bytecode (by rw [if_neg hng, if_neg hnd])]
    simp only
    rw [if_neg hng, if_neg hnd, ih _ (fun g hg => hn g (by simp [hg]))]
    simp

/-- C9 counterexample: a mod containing a function literally named
`" global "` satisfies all of compress's preconditions, and the codecs (the
identity instance, which satisfies the black-box contracts) are lawful, yet
`decompress (compress base mods) base` routes that entry into the `global`
blob: the result's function list is empty and its `global` is the
function's bytecode, not the mod's blob. -/
theorem C9_counterexample :
    (match CompactCO.compress idCodecs ⟨[5], [], [], [1], [1], []⟩
        ⟨[5], [], [], [1], [1], [⟨GLOBAL, [2]⟩]⟩ with
      | .ok P =>
        match CompactCO.decompress idCodecs P ⟨[5], [], [], [1], [1], []⟩ with
        | .ok r => decide (r.functions = [] ∧ r.global = [2] ∧
            r.functions ≠ [⟨GLOBAL, [2]⟩] ∧ r.global ≠ [1])
        | .error _ => false
      | .error _ => false) = true := by decide

/-- C9 amended: for lawful black-box codecs and a base/mods pair meeting
compress's preconditions, provided additionally that no mod function is
named `" global "` or `" data "` (the spec's §4.5 assumption, which the
preconditions alone do not enforce), `decompress (compress base mods) base`
succeeds and returns a CSX whose `global` and `data` equal the mod's and
whose function sequence equals the mod's sequence of (name, bytecode)
pairs in order. -/
theorem C9_compress_decompress (c : Codecs) (hc : c.Lawful) (base mods : CSX)
    (hh : base.base_hash = mods.base_hash)
    (hg : mods.global <+: base.global)
    (hd : mods.data <+: base.data)
    (hn : ∀ f ∈ mods.functions, f.name ≠ GLOBAL ∧ f.name ≠ DATA) :
    ∃ P r, CompactCO.compress c base mods = .ok P ∧
      CompactCO.decompress c P base = .ok r ∧
      r.global = mods.global ∧ r.data = mods.data ∧ r.functions = mods.functions := by
  unfold CompactCO.compress validate_same_hash validateItemsExtend
  rw [if_neg (by simp [hh]), if_neg (by simp [(isPrefixOf_true _ _).2 hg]),
    if_neg (by simp [(isPrefixOf_true _ _).2 hd])]
  simp only
  refine ⟨_, ⟨base.base_hash, [], [], mods.global, mods.data, mods.functions⟩,
    rfl, ?_, rfl, rfl, rfl⟩
  unfold CompactCO.decompress validate_same_hash validateItemsExtend
  simp only
  rw [if_neg (by simp), if_neg (by
    simp only [not_not]
    exact (isPrefixOf_true _ _).2 List.nil_prefix),
    if_neg (by
    simp only [not_not]
    exact (isPrefixOf_true _ _).2 List.nil_prefix)]
  unfold routeEntries
  rw [unpack_make_agree c hc base GLOBAL _ mods.global (by rw [if_pos rfl])]
  simp only [if_pos rfl]
  unfold routeEntries
  rw [unpack_make_agree c hc base DATA _ mods.data (by rw [if_neg (by decide), if_pos rfl])]
  simp only [if_neg (show ¬ (DATA = GLOBAL) by decide), if_pos rfl]
  rw [routeEntries_functions c hc base mods.functions _ hn]
  simp

/-- C9 amended witness: a one-function mod round-trips through the compact
archive with the identity codecs. -/
theorem C9_witness :
    ∃ P r, CompactCO.compress idCodecs ⟨[5], [], [], [1], [1], []⟩
        ⟨[5], [], [], [1], [1], [⟨[65], [4, 0, 0, 0, 0]⟩]⟩ = .ok P ∧
      CompactCO.decompress idCodecs P ⟨[5], [], [], [1], [1], []⟩ = .ok r ∧
      r.global = [1] ∧ r.data = [1] ∧ r.functions = [⟨[65], [4, 0, 0, 0, 0]⟩] :=
  C9_compress_decompress idCodecs idCodecs_lawful
    ⟨[5], [], [], [1], [1], []⟩ ⟨[5], [], [], [1], [1], [⟨[65], [4, 0, 0, 0, 0]⟩]⟩
    rfl (List.prefix_refl _) (List.prefix_refl _) (by decide)

/-! ### Helper lemmas: UTF-16LE decoding vs the `@` marker -/

theorem wfField_iff (f : Function) :
    WfField f ↔ ∃ nb, extract_name f.bytecode 0 = .ok nb ∧ from_utf16 nb = .ok f.name := by
  unfold WfField wfFieldB
  rcases h : extract_name f.bytecode 0 with e | nb
  · simp only [h]
    constructor
    · intro hc; exact absurd hc (by simp)
    · rintro ⟨nb, hnb, -⟩; cases hnb
  · simp only [h]
    constructor
    · intro hc
      exact ⟨nb, rfl, of_decide_eq_true hc⟩
    · rintro ⟨nb', hnb, hd⟩
      injection hnb with hnb
      exact decide_eq_true (hnb ▸ hd)

theorem utf8Encode_ascii (c : Nat) (h : c < 0x80) : utf8Encode c = [c] := by
  unfold utf8Encode
  rw [if_pos h]

theorem utf8Encode_head_of_ge (c : Nat) (h : 0x80 ≤ c) :
    ∃ x r, utf8Encode c = x :: r ∧ 0xC0 ≤ x := by
  unfold utf8Encode
  rw [if_neg (by omega)]
  by_cases h1 : c < 0x800
  · rw [if_pos h1]
    exact ⟨_, _, rfl, by omega⟩
  · rw [if_neg h1]
    by_cases h2 : c < 0x10000
    · rw [if_pos h2]
      exact ⟨_, _, rfl, by omega⟩
    · rw [if_neg h2]
      exact ⟨_, _, rfl, by omega⟩

theorem singleton_isPrefixOf (x : Nat) (l : Bytes) :
    [x].isPrefixOf l = true ↔ l.head? = some x := by
  cases l with
  | nil =>
    constructor
    · intro hc; exact Bool.noConfusion hc
    · intro hc; exact Option.noConfusion hc
  | cons a r =>
    rw [List.isPrefixOf_cons₂, List.isPrefixOf_nil_left]
    simp only [Bool.and_true, beq_iff_eq, List.head?_cons, Option.some.injEq]
    exact ⟨fun h => h.symm, fun h => h.symm⟩

theorem pair_isPrefixOf (x y : Nat) (l : Bytes) :
    [x, y].isPrefixOf l = true ↔ ∃ r, l = x :: y :: r := by
  cases l with
  | nil =>
    constructor
    · intro hc; exact Bool.noConfusion hc
    · rintro ⟨r, hr⟩; cases hr
  | cons a r =>
    cases r with
    | nil =>
      rw [List.isPrefixOf_cons₂]
      constructor
      · intro hc; simp at hc
      · rintro ⟨r, hr⟩; cases hr
    | cons b r2 =>
      rw [List.isPrefixOf_cons₂, List.isPrefixOf_cons₂, List.isPrefixOf_nil_left]
      constructor
      · intro hc
        simp only [Bool.and_true, Bool.and_eq_true, beq_iff_eq] at hc
        exact ⟨r2, by rw [hc.1, hc.2]⟩
      · rintro ⟨r, hr⟩
        injection hr with h1 hr2
        injection hr2 with h2 h3
        simp [h1, h2]

theorem flatten_enc_head (s : List Nat) :
    ((s.map utf8Encode).flatten.head? = some 64 ↔ s.head? = some 64) := by
  cases s with
  | nil => simp
  | cons c s' =>
    simp only [List.map_cons, List.flatten_cons]
    by_cases hc : c < 0x80
    · rw [utf8Encode_ascii c hc]
      simp
    · obtain ⟨x, r, hx, hge⟩ := utf8Encode_head_of_ge c (by omega)
      rw [hx]
      simp only [List.cons_append, List.head?_cons, Option.some.injEq]
      constructor
      · intro h; omega
      · intro h; omega

theorem scalars_head (us s : List Nat) (h : scalarsOfUnits us = some s) :
    (s.head? = some 64 ↔ us.head? = some 64) := by
  cases us with
  | nil =>
    unfold scalarsOfUnits at h
    injection h with h
    rw [← h]
  | cons u r =>
    unfold scalarsOfUnits at h
    by_cases h1 : u < 0xD800 ∨ 0xE000 ≤ u
    · rw [if_pos h1] at h
      rcases hsr : scalarsOfUnits r with _ | s' <;> rw [hsr] at h
      · cases h
      · injection h with h
        rw [← h]
        simp only [List.head?_cons]
    · rw [if_neg h1] at h
      by_cases h2 : u < 0xDC00
      · rw [if_pos h2] at h
        cases r with
        | nil => cases h
        | cons v r2 =>
          dsimp only at h
          by_cases h3 : 0xDC00 ≤ v ∧ v < 0xE000
          · rw [if_pos h3] at h
            rcases hsr : scalarsOfUnits r2 with _ | s' <;> rw [hsr] at h
            · cases h
            · injection h with h
              rw [← h]
              simp only [List.head?_cons, Option.some.injEq]
              constructor
              · intro hh; omega
              · intro hh; omega
          · rw [if_neg h3] at h; cases h
      · rw [if_neg h2] at h; cases h

theorem units_head (nb : Bytes) (us : List Nat) (h : utf16Units nb = some us) :
    (us.head? = some 64 ↔ [64, 0].isPrefixOf nb = true) := by
  cases nb with
  | nil =>
    unfold utf16Units at h
    injection h with h
    rw [← h]
    simp [List.isPrefixOf]
  | cons a t =>
    cases t with
    | nil => unfold utf16Units at h; cases h
    | cons b r =>
      unfold utf16Units at h
      rcases hr : utf16Units r with _ | us' <;> rw [hr] at h
      · cases h
      · injection h with h
        rw [← h, pair_isPrefixOf]
        simp only [List.head?_cons, Option.some.injEq]
        constructor
        · intro hh
          refine ⟨r, ?_⟩
          have ha : a = 64 := by omega
          have hb : b = 0 := by omega
          rw [ha, hb]
        · intro ⟨r', hr'⟩
          injection hr' with h1 hr2
          injection hr2 with h2 _
          omega

/-- The `@` marker corresponds across the encodings: a decoded name starts
with the UTF-8 byte of `@` iff its UTF-16LE source starts with `@\0`. -/
theorem from_utf16_at (nb out : Bytes) (h : from_utf16 nb = .ok out) :
    (startsWithAt out = true ↔ [64, 0].isPrefixOf nb = true) := by
  unfold from_utf16 at h
  rcases hu : (utf16Units nb).bind scalarsOfUnits with _ | s <;> rw [hu] at h
  · cases h
  · injection h with h
    obtain ⟨us, h1, h2⟩ := Option.bind_eq_some.1 hu
    unfold startsWithAt
    rw [singleton_isPrefixOf, ← h, flatten_enc_head s, scalars_head us s h2,
      units_head nb us h1]

theorem utf8_flatten_ascii (s : List Nat) (ha : ∀ b ∈ (s.map utf8Encode).flatten, b < 0x80) :
    s = (s.map utf8Encode).flatten := by
  induction s with
  | nil => rfl
  | cons c s' ih =>
    simp only [List.map_cons, List.flatten_cons] at ha ⊢
    by_cases hc : c < 0x80
    · rw [utf8Encode_ascii c hc]
      simp only [List.singleton_append, List.cons.injEq, true_and]
      exact ih (fun b hb => ha b (by simp [hb]))
    · obtain ⟨x, r, hx, hge⟩ := utf8Encode_head_of_ge c (by omega)
      exfalso
      have hx2 : x ∈ utf8Encode c ++ (s'.map utf8Encode).flatten := by
        rw [hx]; simp
      have := ha x hx2
      omega

set_option maxRecDepth 2000 in
theorem scalars_ascii (us s : List Nat) (h : scalarsOfUnits us = some s)
    (ha : ∀ c ∈ s, c < 0x80) : us = s := by
  induction us generalizing s with
  | nil =>
    unfold scalarsOfUnits at h
    exact Option.some.inj h
  | cons u r ih =>
    unfold scalarsOfUnits at h
    by_cases h1 : u < 0xD800 ∨ 0xE000 ≤ u
    · rw [if_pos h1] at h
      rcases hsr : scalarsOfUnits r with _ | s' <;> rw [hsr] at h
      · cases h
      · injection h with h
        rw [← h]
        simp only [List.cons.injEq, true_and]
        exact ih s' hsr (fun c hc => ha c (by rw [← h]; simp [hc]))
    · rw [if_neg h1] at h
      by_cases h2 : u < 0xDC00
      · rw [if_pos h2] at h
        cases r with
        | nil => cases h
        | cons v r2 =>
          dsimp only at h
          by_cases h3 : 0xDC00 ≤ v ∧ v < 0xE000
          · rw [if_pos h3] at h
            rcases hsr : scalarsOfUnits r2 with _ | s' <;> rw [hsr] at h
            · rw [Option.map_none'] at h; cases h
            · rw [Option.map_some'] at h
              replace h := Option.some.inj h
              exfalso
              have hmem : (0x10000 + (u - 0xD800) * 0x400 + (v - 0xDC00)) ∈ s := by
                rw [← h]; simp
              have := ha _ hmem
              omega
          · rw [if_neg h3] at h; cases h
      · rw [if_neg h2] at h; cases h

theorem units_flat (us : List Nat) : ∀ (nb : Bytes), utf16Units nb = some us →
    (∀ u ∈ us, u < 256) → nb = (us.map (fun u => [u, 0])).flatten := by
  induction us with
  | nil =>
    intro nb h _
    cases nb with
    | nil => rfl
    | cons a t =>
      cases t with
      | nil => unfold utf16Units at h; cases h
      | cons b r =>
        unfold utf16Units at h
        rcases hr : utf16Units r with _ | us' <;> rw [hr] at h
        · cases h
        · injection h with h; cases h
  | cons u us' ih =>
    intro nb h ha
    cases nb with
    | nil =>
      unfold utf16Units at h
      injection h with h
      cases h
    | cons a t =>
      cases t with
      | nil => unfold utf16Units at h; cases h
      | cons b r =>
        unfold utf16Units at h
        rcases hr : utf16Units r with _ | us2 <;> rw [hr] at h
        · cases h
        · injection h with h
          injection h with h1 h2
          subst h2
          have hu : u < 256 := ha u (by simp)
          have hb : b = 0 := by omega
          have haa : a = u := by omega
          subst hb
          subst haa
          simp only [List.map_cons, List.flatten_cons]
          rw [← ih r hr (fun x hx => ha x (by simp [hx]))]
          rfl

/-- ASCII inversion: if a UTF-16LE byte run decodes to an all-ASCII string,
the run is that string's bytes interleaved with zeros. -/
theorem from_utf16_ascii_inv (nb out : Bytes) (h : from_utf16 nb = .ok out)
    (ha : ∀ b ∈ out, b < 0x80) : nb = (out.map (fun b => [b, 0])).flatten := by
  unfold from_utf16 at h
  rcases hu : (utf16Units nb).bind scalarsOfUnits with _ | s <;> rw [hu] at h
  · cases h
  · injection h with h
    obtain ⟨us, h1, h2⟩ := Option.bind_eq_some.1 hu
    have hs : s = out := by
      rw [← h]
      exact utf8_flatten_ascii s (h ▸ ha)
    have huss : us = out := hs ▸ scalars_ascii us s h2 (hs ▸ ha)
    have hnb := units_flat us nb h1 (by
      intro x hx
      have := huss ▸ hx
      have := ha x this
      omega)
    rw [hnb, huss]

/-- A byte run decoding to `@Initialize` is the `PROLOGUE` constant. -/
theorem prologue_of_atInit (nb : Bytes) (h : from_utf16 nb = .ok atInitialize) :
    nb = PROLOGUE := by
  have := from_utf16_ascii_inv nb atInitialize h (by decide)
  rw [this]
  decide

/-! ### Helper lemmas: the directory sort relation -/

theorem cmp_utf16_eq : ∀ (a b : Bytes),
    cmp_utf16 a b = cmpUnits (asChunks16 a) (asChunks16 b)
  | [], [] => rfl
  | [], [_] => rfl
  | [], _ :: _ :: _ => rfl
  | [_], [] => rfl
  | [_], [_] => rfl
  | [_], _ :: _ :: _ => rfl
  | _ :: _ :: _, [] => rfl
  | _ :: _ :: _, [_] => rfl
  | la :: lb :: l, ra :: rb :: r => by
    simp only [cmp_utf16, asChunks16, cmpUnits]
    cases compare (la + 256 * lb) (ra + 256 * rb) <;> simp [cmp_utf16_eq l r]

theorem cmpUnits_nil_le (c : List Nat) : cmpUnits [] c ≠ .gt := by
  cases c <;> simp [cmpUnits]

theorem cmpUnits_symm : ∀ (a b : List Nat), cmpUnits b a = (cmpUnits a b).swap
  | [], [] => rfl
  | [], _ :: _ => rfl
  | _ :: _, [] => rfl
  | u :: us, v :: vs => by
    simp only [cmpUnits]
    rcases Nat.lt_trichotomy u v with h | h | h
    · rw [Nat.compare_eq_lt.2 h, Nat.compare_eq_gt.2 h]
      rfl
    · subst h
      rw [Nat.compare_eq_eq.2 rfl]
      exact cmpUnits_symm us vs
    · rw [Nat.compare_eq_gt.2 h, Nat.compare_eq_lt.2 h]
      rfl

theorem cmpUnits_trans : ∀ (a b c : List Nat),
    cmpUnits a b ≠ .gt → cmpUnits b c ≠ .gt → cmpUnits a c ≠ .gt
  | [], _, c, _, _ => cmpUnits_nil_le c
  | _ :: _, [], _, h1, _ => absurd rfl h1
  | _ :: _, _ :: _, [], _, h2 => absurd rfl h2
  | x :: xs, y :: ys, z :: zs, h1, h2 => by
    simp only [cmpUnits] at h1 h2 ⊢
    rcases hxy : compare x y with _ | _ | _ <;> rw [hxy] at h1
    · have hxylt : x < y := Nat.compare_eq_lt.1 hxy
      rcases hyz : compare y z with _ | _ | _ <;> rw [hyz] at h2
      · have : x < z := hxylt.trans (Nat.compare_eq_lt.1 hyz)
        rw [Nat.compare_eq_lt.2 this]
        simp
      · have : x < z := (Nat.compare_eq_eq.1 hyz) ▸ hxylt
        rw [Nat.compare_eq_lt.2 this]
        simp
      · exact absurd rfl h2
    · have hxyeq : x = y := Nat.compare_eq_eq.1 hxy
      rcases hyz : compare y z with _ | _ | _ <;> rw [hyz] at h2
      · have : x < z := hxyeq ▸ Nat.compare_eq_lt.1 hyz
        rw [Nat.compare_eq_lt.2 this]
        simp
      · have : x = z := hxyeq.trans (Nat.compare_eq_eq.1 hyz)
        rw [Nat.compare_eq_eq.2 this]
        exact cmpUnits_trans xs ys zs h1 h2
      · exact absurd rfl h2
    · exact absurd rfl h1

theorem leName_total (p q : Nat × Bytes) : leName p q ∨ leName q p := by
  unfold leName
  rw [cmp_utf16_eq, cmp_utf16_eq]
  by_cases h : cmpUnits (asChunks16 p.2) (asChunks16 q.2) = .gt
  · right
    rw [cmpUnits_symm, h]
    simp [Ordering.swap]
  · left; exact h

instance : IsTotal (Nat × Bytes) leName := ⟨leName_total⟩

instance : IsTrans (Nat × Bytes) leName :=
  ⟨fun p q r h1 h2 => by
    unfold leName at h1 h2 ⊢
    rw [cmp_utf16_eq] at h1 h2 ⊢
    exact cmpUnits_trans _ _ _ h1 h2⟩

/-! ### Helper lemmas: name fields inside a larger image -/

theorem takeN?_extend {n : Nat} {X A B : Bytes} (t : Bytes) (h : takeN? n X = some (A, B)) :
    takeN? n (X ++ t) = some (A, B ++ t) := by
  obtain ⟨hX, hlen⟩ := takeN?_eq_some h
  subst hX
  rw [List.append_assoc, ← hlen, takeN?_append]

theorem extract_name_extend (bc t nb : Bytes) (h : extract_name bc 0 = .ok nb) :
    extract_name (bc ++ t) 0 = .ok nb := by
  unfold extract_name at h ⊢
  rw [if_pos (Nat.zero_le _)] at h
  rw [if_pos (Nat.zero_le _)]
  rw [List.drop_zero] at h
  rw [List.drop_zero]
  rcases h1 : takeN? 1 bc with _ | ⟨tag, rest⟩ <;> simp only [h1] at h
  · cases h
  · simp only [takeN?_extend t h1]
    by_cases ht : tag = [4]
    · simp only [if_pos ht] at h ⊢
      rcases h2 : takeN? 4 rest with _ | ⟨lb, rest2⟩ <;> simp only [h2] at h
      · cases h
      · simp only [takeN?_extend t h2]
        rcases h3 : takeN? (2 * fromLE lb) rest2 with _ | ⟨nm, junk⟩ <;> simp only [h3] at h
        · cases h
        · simp only [takeN?_extend t h3]
          exact h
    · rw [if_neg ht] at h
      cases h

theorem extract_name_at (image : Bytes) (a : Nat) (bc t nb : Bytes)
    (himg : image.drop a = bc ++ t) (ha : a ≤ image.length)
    (h : extract_name bc 0 = .ok nb) : extract_name image a = .ok nb := by
  have h2 := extract_name_extend bc t nb h
  unfold extract_name at h2 ⊢
  rw [if_pos ha, himg]
  rw [if_pos (Nat.zero_le _), List.drop_zero] at h2
  exact h2

theorem wf_extract (f : Function) (h : WfField f) :
    extract_name f.bytecode 0 = .ok (nameField f) ∧
    from_utf16 (nameField f) = .ok f.name := by
  obtain ⟨nb, hnb, hd⟩ := (wfField_iff f).1 h
  have he : nameField f = nb := by simp [nameField, hnb]
  rw [he]
  exact ⟨hnb, hd⟩

theorem wf_sizes (f : Function) (h : WfField f) :
    ∃ k, (nameField f).length = 2 * k ∧ 5 + 2 * k ≤ f.bytecode.length := by
  obtain ⟨hext, -⟩ := wf_extract f h
  unfold extract_name at hext
  rw [if_pos (Nat.zero_le _), List.drop_zero] at hext
  rcases h1 : takeN? 1 f.bytecode with _ | ⟨tag, rest⟩ <;> simp only [h1] at hext
  · cases hext
  · by_cases ht : tag = [4]
    · simp only [if_pos ht] at hext
      rcases h2 : takeN? 4 rest with _ | ⟨lb, rest2⟩ <;> simp only [h2] at hext
      · cases hext
      · rcases h3 : takeN? (2 * fromLE lb) rest2 with _ | ⟨nm, junk⟩ <;> simp only [h3] at hext
        · cases hext
        · injection hext with hext
          obtain ⟨e1, l1⟩ := takeN?_eq_some h1
          obtain ⟨e2, l2⟩ := takeN?_eq_some h2
          obtain ⟨e3, l3⟩ := takeN?_eq_some h3
          refine ⟨fromLE lb, by rw [← hext, l3], ?_⟩
          have hb : f.bytecode.length = 1 + (4 + (nm.length + junk.length)) := by
            rw [e1, e2, e3]
            simp [l1, l2]
          rw [l3] at hb
          omega
    · rw [if_neg ht] at hext
      cases hext

theorem wf_five (f : Function) (h : WfField f) : 5 ≤ f.bytecode.length := by
  obtain ⟨k, -, hk⟩ := wf_sizes f h
  omega

/-! ### Helper lemmas: offsets, sizes, and the image split -/

theorem totalSize_cons (f : Function) (fs : List Function) :
    totalSize (f :: fs) = f.bytecode.length + totalSize fs := by
  simp [totalSize]

theorem imageBytes_cons (f : Function) (fs : List Function) :
    imageBytes (f :: fs) = f.bytecode ++ imageBytes fs := by
  simp [imageBytes]

theorem imageBytes_length (fs : List Function) : (imageBytes fs).length = totalSize fs := by
  induction fs with
  | nil => rfl
  | cons f fs ih => rw [imageBytes_cons, totalSize_cons, List.length_append, ih]

theorem length_le_totalSize (fs : List Function) (h : ∀ f ∈ fs, 1 ≤ f.bytecode.length) :
    fs.length ≤ totalSize fs := by
  induction fs with
  | nil => simp [totalSize]
  | cons f fs ih =>
    rw [totalSize_cons]
    have h1 := h f (by simp)
    have h2 := ih (fun g hg => h g (by simp [hg]))
    simp only [List.length_cons]
    omega

theorem plainOffsets_cons (f : Function) (fs : List Function) (a : Nat) :
    plainOffsets (f :: fs) a = (a, f) :: plainOffsets fs (a + f.bytecode.length) := rfl

theorem funcOffsets_eq_plain : ∀ (fs : List Function) (a : Nat),
    a + totalSize fs < 2 ^ 32 → funcOffsets fs a = plainOffsets fs a := by
  intro fs
  induction fs with
  | nil => intro a _; rfl
  | cons f fs ih =>
    intro a h
    rw [totalSize_cons] at h
    unfold funcOffsets plainOffsets
    have h1 : f.bytecode.length % 2 ^ 32 = f.bytecode.length :=
      Nat.mod_eq_of_lt (by omega)
    have h2 : (a + f.bytecode.length) % 2 ^ 32 = a + f.bytecode.length :=
      Nat.mod_eq_of_lt (by omega)
    rw [h1, h2, ih _ (by omega)]

theorem plainOffsets_ge : ∀ (fs : List Function) (a : Nat) (p : Nat × Function),
    p ∈ plainOffsets fs a → a ≤ p.1 := by
  intro fs
  induction fs with
  | nil => intro a p h; cases h
  | cons f fs ih =>
    intro a p h
    unfold plainOffsets at h
    rcases List.mem_cons.1 h with h | h
    · rw [h]
    · have := ih _ p h
      omega

theorem plainOffsets_sorted : ∀ (fs : List Function) (a : Nat),
    List.Sorted (· ≤ ·) ((plainOffsets fs a).map Prod.fst) := by
  intro fs
  induction fs with
  | nil => intro a; simp [plainOffsets]
  | cons f fs ih =>
    intro a
    unfold plainOffsets
    rw [List.map_cons, List.sorted_cons]
    refine ⟨?_, ih _⟩
    intro b hb
    obtain ⟨p, hp, hpe⟩ := List.mem_map.1 hb
    have := plainOffsets_ge fs _ p hp
    omega

theorem plainOffsets_decomp : ∀ (fs : List Function) (a0 : Nat) (p : Nat × Function),
    p ∈ plainOffsets fs a0 →
    ∃ t, (imageBytes fs).drop (p.1 - a0) = p.2.bytecode ++ t ∧ a0 ≤ p.1 ∧
      p.1 - a0 + p.2.bytecode.length ≤ totalSize fs := by
  intro fs
  induction fs with
  | nil => intro a0 p h; cases h
  | cons f fs ih =>
    intro a0 p h
    unfold plainOffsets at h
    rcases List.mem_cons.1 h with h | h
    · subst h
      refine ⟨imageBytes fs, ?_, le_rfl, ?_⟩
      · simp [imageBytes_cons]
      · dsimp only
        rw [totalSize_cons]
        omega
    · obtain ⟨t, hd, hge, hb⟩ := ih _ p h
      refine ⟨t, ?_, by omega, ?_⟩
      · rw [imageBytes_cons]
        have hsplit : p.1 - a0 = f.bytecode.length + (p.1 - (a0 + f.bytecode.length)) := by
          omega
        rw [hsplit, List.drop_append]
        exact hd
      · rw [totalSize_cons]
        omega

theorem wrap_sub (x a : Nat) (h1 : a ≤ x) (h2 : x < 2 ^ 32) :
    (x + 2 ^ 32 - a) % 2 ^ 32 = x - a := by
  omega

theorem offsSent_shape : ∀ (fs : List Function) (a : Nat),
    ∃ r, (plainOffsets fs a).map Prod.fst ++ [a + totalSize fs] = a :: r := by
  intro fs a
  cases fs with
  | nil => exact ⟨[], by simp [plainOffsets, totalSize]⟩
  | cons f fs =>
    exact ⟨(plainOffsets fs (a + f.bytecode.length)).map Prod.fst ++ [a + totalSize (f :: fs)],
      by simp [plainOffsets]⟩

theorem diffSizes_offsets : ∀ (fs : List Function) (a : Nat), a + totalSize fs < 2 ^ 32 →
    diffSizes ((plainOffsets fs a).map Prod.fst ++ [a + totalSize fs]) =
      fs.map (fun f => f.bytecode.length) := by
  intro fs
  induction fs with
  | nil => intro a _; simp [plainOffsets, totalSize, diffSizes]
  | cons f fs ih =>
    intro a h
    rw [totalSize_cons] at h
    have hstep : (plainOffsets (f :: fs) a).map Prod.fst ++ [a + totalSize (f :: fs)] =
        a :: ((plainOffsets fs (a + f.bytecode.length)).map Prod.fst ++
          [(a + f.bytecode.length) + totalSize fs]) := by
      rw [plainOffsets_cons, totalSize_cons, List.map_cons, List.cons_append, ← Nat.add_assoc]
    rw [hstep]
    obtain ⟨r, hr⟩ := offsSent_shape fs (a + f.bytecode.length)
    rw [hr]
    unfold diffSizes
    rw [← hr, ih _ (by omega)]
    rw [List.map_cons]
    congr 1
    rw [wrap_sub _ _ (by omega) (by omega)]
    omega

theorem carve_flat : ∀ (fs : List Function), (∀ f ∈ fs, WfField f) →
    carve (fs.map (fun f => f.bytecode.length)) (imageBytes fs) = .ok fs := by
  intro fs
  induction fs with
  | nil => intro _; rfl
  | cons f fs ih =>
    intro hwf
    rw [List.map_cons, imageBytes_cons]
    unfold carve
    obtain ⟨hext, hdec⟩ := wf_extract f (hwf f (by simp))
    rw [extract_name_extend _ _ _ hext]
    simp only [hdec]
    rw [takeN?_append]
    simp only [ih (fun g hg => hwf g (by simp [hg]))]

/-! ### Helper lemmas: the rebuild directory -/

theorem rebuildDir_eq (fs : List Function) (a : Nat) (hwf : ∀ f ∈ fs, WfField f) :
    rebuildDir fs a = some
      (((funcOffsets fs a).filter (fun p => p.2.name = atInitialize)).map Prod.fst,
       ((funcOffsets fs a).filter (fun p => ¬ p.2.name = atInitialize)).map
         (fun p => (p.1, nameField p.2))) := by
  induction fs generalizing a with
  | nil => rfl
  | cons f fs ih =>
    unfold rebuildDir funcOffsets
    by_cases hname : f.name = atInitialize
    · rw [if_pos hname, ih _ (fun g hg => hwf g (by simp [hg]))]
      simp [List.filter_cons, hname]
    · rw [if_neg hname]
      obtain ⟨nb, hnb, hdec⟩ := (wfField_iff f).1 (hwf f (by simp))
      rw [hnb, ih _ (fun g hg => hwf g (by simp [hg]))]
      simp [List.filter_cons, hname, nameField, hnb]

theorem funcOffsets_mem (fs : List Function) : ∀ (a : Nat) (p : Nat × Function),
    p ∈ funcOffsets fs a → p.2 ∈ fs := by
  induction fs with
  | nil => intro a p h; cases h
  | cons f fs ih =>
    intro a p h
    unfold funcOffsets at h
    rcases List.mem_cons.1 h with h | h
    · rw [h]; simp
    · exact List.mem_cons_of_mem _ (ih _ p h)

/-- C4 amended: for a CSX satisfying the data-model invariants (well-formed
embedded name fields matching the recorded names, and `@Initialize` the only
`@`-prefixed name — the parser does not establish the latter, see the C4
counterexample), the directory pass of `rebuild` succeeds; the prologue
address list is exactly the offsets of the functions named `@Initialize`;
the emitted named list is sorted under the 16-bit little-endian code-unit
lexicographic order (`cmp_utf16`, shorter name first on a shared prefix);
and no `@`-prefixed UTF-16LE name (`@\0` bytes) appears among the named
records. -/
theorem C4_rebuild_directory (s : CSX)
    (hwf : ∀ f ∈ s.functions, WfField f)
    (hat : ∀ f ∈ s.functions, startsWithAt f.name = true → f.name = atInitialize) :
    ∃ pro named, rebuildDir s.functions 0 = some (pro, named) ∧
      pro = ((funcOffsets s.functions 0).filter
        (fun p => p.2.name = atInitialize)).map Prod.fst ∧
      List.Sorted leName (List.insertionSort leName named) ∧
      ∀ an ∈ List.insertionSort leName named, ¬ ([64, 0].isPrefixOf an.2 = true) := by
  refine ⟨_, _, rebuildDir_eq s.functions 0 hwf, rfl, List.sorted_insertionSort leName _, ?_⟩
  intro an han
  have hmem : an ∈ ((funcOffsets s.functions 0).filter
      (fun p => ¬ p.2.name = atInitialize)).map (fun p => (p.1, nameField p.2)) :=
    (List.perm_insertionSort leName _).mem_iff.1 han
  obtain ⟨p, hp, hpe⟩ := List.mem_map.1 hmem
  obtain ⟨hpo, hpni⟩ := List.mem_filter.1 hp
  have hfs : p.2 ∈ s.functions := funcOffsets_mem s.functions 0 p hpo
  obtain ⟨nb, hnb, hdec⟩ := (wfField_iff p.2).1 (hwf p.2 hfs)
  have hnf : nameField p.2 = nb := by simp [nameField, hnb]
  have hnot : ¬ startsWithAt p.2.name = true := by
    intro hsw
    have := hat p.2 hfs hsw
    simp at hpni
    exact hpni this
  intro hpre
  apply hnot
  rw [from_utf16_at nb p.2.name hdec]
  rw [← hpe] at hpre
  simp only at hpre
  rw [hnf] at hpre
  exact hpre

/-- C4 witness: a two-function image (an `@Initialize` and a named `A`). -/
theorem C4_witness :
    ∃ pro named,
      rebuildDir [⟨atInitialize, [4, 11, 0, 0, 0] ++ PROLOGUE⟩, ⟨[65], [4, 1, 0, 0, 0, 65, 0]⟩]
        0 = some (pro, named) ∧
      pro = ((funcOffsets [⟨atInitialize, [4, 11, 0, 0, 0] ++ PROLOGUE⟩,
          ⟨[65], [4, 1, 0, 0, 0, 65, 0]⟩] 0).filter
        (fun p => p.2.name = atInitialize)).map Prod.fst ∧
      List.Sorted leName (List.insertionSort leName named) ∧
      ∀ an ∈ List.insertionSort leName named, ¬ ([64, 0].isPrefixOf an.2 = true) :=
  C4_rebuild_directory
    ⟨[0], [], [], [1], [1],
      [⟨atInitialize, [4, 11, 0, 0, 0] ++ PROLOGUE⟩, ⟨[65], [4, 1, 0, 0, 0, 65, 0]⟩]⟩
    (by decide) (by decide)

set_option maxRecDepth 100000 in
/-- C4 counterexample to the claim as stated: `BatFoo` is accepted by
`CSX::new`, yet the directory `rebuild` emits for its parse places the
`@`-prefixed name bytes `@\0F\0o\0o\0` among the named records (and the
rebuild succeeds), because the carve read the function's name from an
offset the directory validation never covered. -/
theorem C4_counterexample :
    (match CSX.new BatFoo with
      | .ok img =>
        match rebuildDir img.functions 0 with
        | some pr => decide ((∃ an ∈ List.insertionSort leName pr.2,
            [64, 0].isPrefixOf an.2 = true) ∧ ¬ CSX.rebuild img = none)
        | none => false
      | .error _ => false) = true := by decide

/-- C10 amended: under the precondition — every function's bytecode begins
with a well-formed embedded name field decoding to its name — the name
extraction inside `rebuild` cannot fail, so `rebuild` always produces an
output. -/
theorem C10_rebuild_extraction_total (s : CSX)
    (hwf : ∀ f ∈ s.functions, WfField f) :
    ∃ out, CSX.rebuild s = some out := by
  unfold CSX.rebuild
  rw [rebuildDir_eq s.functions 0 hwf]
  exact ⟨_, rfl⟩

/-- C10 witness: the extraction succeeds on a concrete well-formed image. -/
theorem C10_witness :
    ∃ out, CSX.rebuild ⟨[0], [], [], [1], [1], [⟨[65], [4, 1, 0, 0, 0, 65, 0]⟩]⟩ = some out :=
  C10_rebuild_extraction_total ⟨[0], [], [], [1], [1], [⟨[65], [4, 1, 0, 0, 0, 65, 0]⟩]⟩
    (by decide)

/-! ### Helper lemmas: the section scanner -/

theorem parseSections_fuel : ∀ (f1 f2 : Nat) (l : Bytes) (st : Sections),
    l.length ≤ f1 → l.length ≤ f2 → parseSections f1 l st = parseSections f2 l st := by
  intro f1
  induction f1 with
  | zero =>
    intro f2 l st h1 h2
    have hl : l = [] := List.eq_nil_of_length_eq_zero (Nat.le_zero.1 h1)
    subst hl
    cases f2 <;> rfl
  | succ n ih =>
    intro f2 l st h1 h2
    cases l with
    | nil => cases f2 <;> rfl
    | cons x xs =>
      cases f2 with
      | zero => simp at h2
      | succ m =>
        unfold parseSections
        rw [if_neg (by simp), if_neg (by simp)]
        rcases ht1 : takeN? 8 (x :: xs) with _ | ⟨header, r1⟩
        · rfl
        · simp only
          rcases ht2 : takeN? 8 r1 with _ | ⟨lenb, r2⟩
          · rfl
          · simp only
            rcases ht3 : takeN? (fromLE lenb) r2 with _ | ⟨contents, rest⟩
            · rfl
            · simp only
              obtain ⟨e1, l1⟩ := takeN?_eq_some ht1
              obtain ⟨e2, l2⟩ := takeN?_eq_some ht2
              obtain ⟨e3, l3⟩ := takeN?_eq_some ht3
              have hr : rest.length + 16 ≤ (x :: xs).length := by
                rw [e1, e2, e3]
                simp only [List.length_append, l1, l2]
                omega
              have hlen : (x :: xs).length ≤ n + 1 := h1
              have hlen2 : (x :: xs).length ≤ m + 1 := h2
              have hn : rest.length ≤ n := by omega
              have hm : rest.length ≤ m := by omega
              split_ifs <;> first | rfl | exact ih m rest _ hn hm

theorem parseSections_sec (f : Nat) (tag c rest : Bytes) (st : Sections)
    (htag : tag = secImage ∨ tag = secFunction ∨ tag = secGlobal ∨ tag = secData ∨
      tag = secConststr ∨ tag = secLinkinf)
    (hc : c.length < 2 ^ 64)
    (hf : (sectionBytes tag c ++ rest).length ≤ f) :
    parseSections f (sectionBytes tag c ++ rest) st =
      parseSections rest.length rest (updateSec st tag c) := by
  have htag8 : tag.length = 8 := by
    rcases htag with h | h | h | h | h | h <;> subst h <;> rfl
  have hmod : c.length % 2 ^ 64 = c.length := Nat.mod_eq_of_lt hc
  have hlen : (sectionBytes tag c ++ rest).length = 16 + c.length + rest.length := by
    unfold sectionBytes
    simp only [List.length_append, htag8, toLE_length]
    try omega
  rw [parseSections_fuel f ((f - 1) + 1) _ st hf (by omega)]
  conv_lhs => unfold parseSections
  rw [if_neg (by
    simp only [List.isEmpty_eq_true, List.append_eq_nil]
    intro hemp
    have := congrArg List.length hemp.1
    unfold sectionBytes at this
    simp [htag8, toLE_length] at this)]
  have h1 : takeN? 8 (sectionBytes tag c ++ rest) =
      some (tag, toLE 8 (c.length % 2 ^ 64) ++ (c ++ rest)) := by
    unfold sectionBytes
    simp only [List.append_assoc]
    rw [← htag8]
    exact takeN?_append _ _
  rw [h1]
  simp only
  have h2 : takeN? 8 (toLE 8 (c.length % 2 ^ 64) ++ (c ++ rest)) =
      some (toLE 8 (c.length % 2 ^ 64), c ++ rest) := by
    rw [show (8 : Nat) = (toLE 8 (c.length % 2 ^ 64)).length from (toLE_length 8 _).symm]
    exact takeN?_append _ _
  rw [h2]
  simp only
  rw [hmod, fromLE_toLE 8 c.length (by norm_num at hc ⊢; exact hc), takeN?_append c rest]
  simp only
  have hfe : (f - 1) ≥ rest.length := by omega
  rcases htag with h | h | h | h | h | h <;> subst h
  · rw [if_pos rfl]
    unfold updateSec
    rw [if_pos rfl]
    exact parseSections_fuel _ _ _ _ hfe le_rfl
  · rw [if_neg (by decide), if_pos rfl]
    unfold updateSec
    rw [if_neg (by decide), if_pos rfl]
    exact parseSections_fuel _ _ _ _ hfe le_rfl
  · rw [if_neg (by decide), if_neg (by decide), if_pos rfl]
    unfold updateSec
    rw [if_neg (by decide), if_neg (by decide), if_pos rfl]
    exact parseSections_fuel _ _ _ _ hfe le_rfl
  · rw [if_neg (by decide), if_neg (by decide), if_neg (by decide), if_pos rfl]
    unfold updateSec
    rw [if_neg (by decide), if_neg (by decide), if_neg (by decide), if_pos rfl]
    exact parseSections_fuel _ _ _ _ hfe le_rfl
  · rw [if_neg (by decide), if_neg (by decide), if_neg (by decide), if_neg (by decide),
      if_pos rfl]
    unfold updateSec
    rw [if_neg (by decide), if_neg (by decide), if_neg (by decide), if_neg (by decide),
      if_pos rfl]
    exact parseSections_fuel _ _ _ _ hfe le_rfl
  · rw [if_neg (by decide), if_neg (by decide), if_neg (by decide), if_neg (by decide),
      if_neg (by decide), if_pos rfl]
    unfold updateSec
    rw [if_neg (by decide), if_neg (by decide), if_neg (by decide), if_neg (by decide),
      if_neg (by decide), if_pos rfl]
    exact parseSections_fuel _ _ _ _ hfe le_rfl

set_option maxRecDepth 100000 in
/-- C3 counterexample: an input in which the `global` tag appears twice is
accepted by CSX parsing (the claim says it must fail); the second body,
`[7]`, overwrites the first, `[1]`. -/
theorem C3_counterexample :
    (match CSX.new (MAGIC ++ List.replicate 8 0 ++
        secFunction ++ toLE 8 12 ++ List.replicate 12 0 ++
        secGlobal ++ toLE 8 1 ++ [1] ++
        secData ++ toLE 8 1 ++ [9] ++
        secGlobal ++ toLE 8 1 ++ [7]) with
      | .ok img => decide (img.global = [7] ∧ img.data = [9])
      | .error _ => false) = true := by decide

set_option maxHeartbeats 2000000 in
/-- C3 amended: a repeated section tag does not make parsing fail — the
last occurrence of the tag wins (first conjunct, for a whole input with two
`global` sections); an input whose section scan leaves `global` (resp.
`data`) empty — missing or empty-bodied — fails with BadSection for that
tag (second and third conjuncts). -/
theorem C3_sections_last_wins_and_badsection :
    (∀ g1 g2 d : Bytes, g2 ≠ [] → d ≠ [] →
      g1.length < 2 ^ 64 → g2.length < 2 ^ 64 → d.length < 2 ^ 64 →
      CSX.new ((MAGIC ++ List.replicate 8 0) ++
        (sectionBytes secFunction (List.replicate 12 0) ++
          (sectionBytes secGlobal g1 ++ (sectionBytes secData d ++
            sectionBytes secGlobal g2)))) =
        .ok ⟨sha3_224 ((MAGIC ++ List.replicate 8 0) ++
          (sectionBytes secFunction (List.replicate 12 0) ++
            (sectionBytes secGlobal g1 ++ (sectionBytes secData d ++
              sectionBytes secGlobal g2)))), [], [], g2, d, []⟩) ∧
    (∀ (csx header body : Bytes) (st : Sections) (b : Bool),
      takeN? 64 csx = some (header, body) →
      MAGIC.isPrefixOf header = true →
      parseSections body.length body Sections.empty = .ok st →
      st.global = [] →
      CSX.new_ csx b = .error (.badSection secGlobal)) ∧
    (∀ (csx header body : Bytes) (st : Sections) (b : Bool),
      takeN? 64 csx = some (header, body) →
      MAGIC.isPrefixOf header = true →
      parseSections body.length body Sections.empty = .ok st →
      st.global ≠ [] → st.data = [] →
      CSX.new_ csx b = .error (.badSection secData)) := by
  refine ⟨?_, ?_, ?_⟩
  · intro g1 g2 d hg2 hd hl1 hl2 hl3
    unfold CSX.new CSX.new_
    rw [show takeN? 64 ((MAGIC ++ List.replicate 8 0) ++
        (sectionBytes secFunction (List.replicate 12 0) ++
          (sectionBytes secGlobal g1 ++ (sectionBytes secData d ++
            sectionBytes secGlobal g2)))) =
        some (MAGIC ++ List.replicate 8 0,
          sectionBytes secFunction (List.replicate 12 0) ++
            (sectionBytes secGlobal g1 ++ (sectionBytes secData d ++
              sectionBytes secGlobal g2))) from by
      rw [show (64 : Nat) = (MAGIC ++ List.replicate 8 0 : Bytes).length from by decide]
      exact takeN?_append _ _]
    dsimp only
    rw [if_pos (by decide)]
    rw [parseSections_sec _ secFunction (List.replicate 12 0) _ _ (by simp) (by decide) le_rfl]
    rw [parseSections_sec _ secGlobal g1 _ _ (by simp) hl1 le_rfl]
    rw [parseSections_sec _ secData d _ _ (by simp) hl3 le_rfl]
    rw [show sectionBytes secGlobal g2 = sectionBytes secGlobal g2 ++ [] from
      (List.append_nil _).symm]
    rw [parseSections_sec _ secGlobal g2 _ _ (by simp) hl2 le_rfl]
    rw [show updateSec (updateSec (updateSec (updateSec Sections.empty secFunction
        (List.replicate 12 0)) secGlobal g1) secData d) secGlobal g2 =
        ⟨[], List.replicate 12 0, g2, d, [], []⟩ from rfl]
    rw [show parseSections (List.length ([] : Bytes)) [] (⟨[], List.replicate 12 0, g2, d, [], []⟩ : Sections) =
      .ok ⟨[], List.replicate 12 0, g2, d, [], []⟩ from rfl]
    unfold csxFinish
    dsimp only
    rw [if_neg hg2, if_neg hd, if_neg (by simp), if_neg (by simp)]
    rw [show parseDir ([] : Bytes) (List.replicate 12 0) = .ok [] from by decide]
    rfl
  · intro csx header body st b h1 h2 h3 hg
    unfold CSX.new_
    simp only [h1]
    rw [if_pos h2]
    simp only [h3]
    unfold csxFinish
    rw [if_pos hg]
  · intro csx header body st b h1 h2 h3 hg hd
    unfold CSX.new_
    simp only [h1]
    rw [if_pos h2]
    simp only [h3]
    unfold csxFinish
    rw [if_neg hg, if_pos hd]

set_option maxRecDepth 100000 in
/-- C3 witness: the last-wins conjunct at concrete bodies, and the
BadSection conjunct on a concrete input missing its `global` section. -/
theorem C3_witness :
    CSX.new ((MAGIC ++ List.replicate 8 0) ++
      (sectionBytes secFunction (List.replicate 12 0) ++
        (sectionBytes secGlobal [1] ++ (sectionBytes secData [9] ++
          sectionBytes secGlobal [7])))) =
      .ok ⟨sha3_224 ((MAGIC ++ List.replicate 8 0) ++
        (sectionBytes secFunction (List.replicate 12 0) ++
          (sectionBytes secGlobal [1] ++ (sectionBytes secData [9] ++
            sectionBytes secGlobal [7])))), [], [], [7], [9], []⟩ :=
  C3_sections_last_wins_and_badsection.1 [1] [7] [9] (by decide) (by decide)
    (by decide) (by decide) (by decide)

set_option maxRecDepth 100000 in
/-- C10 counterexample: the parser does not always establish the
precondition.  This input's directory lists the same named record twice at
address 0, so the image is carved at duplicate addresses: the parser
accepts it and returns a CSX whose first function has an empty bytecode —
no well-formed name field — and `rebuild` of that very parse result hits
the unreachable-claimed failure branch (`none`, the modelled unwrap
panic). -/
theorem C10_counterexample :
    (match CSX.new (MAGIC ++ List.replicate 8 0 ++
        secImage ++ toLE 8 7 ++ [4, 1, 0, 0, 0, 65, 0] ++
        secFunction ++ toLE 8 32 ++
          (toLE 4 0 ++ toLE 4 0 ++ toLE 4 2 ++
           (toLE 4 0 ++ toLE 4 1 ++ [65, 0]) ++ (toLE 4 0 ++ toLE 4 1 ++ [65, 0])) ++
        secGlobal ++ toLE 8 1 ++ [7] ++ secData ++ toLE 8 1 ++ [9]) with
      | .ok img => decide ((img.functions.map Function.bytecode).head? = some [] ∧
          (∃ f ∈ img.functions, ¬ WfField f) ∧ CSX.rebuild img = none)
      | .error _ => false) = true := by decide

/-! ### Helper lemmas: re-parsing the rebuilt function directory -/

theorem takeN?_toLE (k n : Nat) (r : Bytes) : takeN? k (toLE k n ++ r) = some (toLE k n, r) := by
  have h := takeN?_append (toLE k n) r
  rwa [toLE_length] at h

theorem parsePrologues_emit (image : Bytes) : ∀ (addrs : List Nat) (tail : Bytes),
    (∀ a ∈ addrs, a < 2 ^ 32) →
    (∀ a ∈ addrs, validate_name image a PROLOGUE = .ok ()) →
    parsePrologues image addrs.length ((addrs.map (toLE 4)).flatten ++ tail) =
      .ok (addrs, tail) := by
  intro addrs
  induction addrs with
  | nil => intro tail _ _; rfl
  | cons a addrs ih =>
    intro tail h32 hval
    simp only [List.map_cons, List.flatten_cons, List.length_cons, List.append_assoc]
    unfold parsePrologues
    simp only [takeN?_toLE]
    have e1 : fromLE (toLE 4 a) = a :=
      fromLE_toLE 4 a (by have := h32 a (by simp); norm_num; omega)
    rw [e1]
    simp only [hval a (by simp)]
    rw [ih tail (fun b hb => h32 b (by simp [hb])) (fun b hb => hval b (by simp [hb]))]

theorem parseNamed_emit (image : Bytes) : ∀ (named : List (Nat × Bytes)) (tail : Bytes),
    (∀ p ∈ named, p.1 < 2 ^ 32 ∧ (∃ k, p.2.length = 2 * k ∧ k < 2 ^ 32) ∧
      validate_name image p.1 p.2 = .ok () ∧ ¬ ([64, 0].isPrefixOf p.2 = true)) →
    parseNamed image named.length
      ((named.map (fun an => toLE 4 an.1 ++ toLE 4 (an.2.length / 2 % 2 ^ 32) ++ an.2)).flatten
        ++ tail) = .ok (named.map Prod.fst, tail) := by
  intro named
  induction named with
  | nil => intro tail _; rfl
  | cons p named ih =>
    intro tail hp
    obtain ⟨h32, ⟨k, hk, hk32⟩, hval, hat⟩ := hp p (by simp)
    simp only [List.map_cons, List.flatten_cons, List.length_cons, List.append_assoc]
    simp only [List.append_assoc] at ih
    unfold parseNamed
    simp only [takeN?_toLE]
    have e1 : fromLE (toLE 4 p.1) = p.1 := fromLE_toLE 4 p.1 (by norm_num; omega)
    have e2 : p.2.length / 2 % 2 ^ 32 = k := by omega
    have e3 : fromLE (toLE 4 (p.2.length / 2 % 2 ^ 32)) = k := by
      rw [e2]
      exact fromLE_toLE 4 k (by norm_num; omega)
    rw [e1, e3]
    have e4 : takeN? (2 * k) (p.2 ++ ((named.map
        (fun an => toLE 4 an.1 ++ (toLE 4 (an.2.length / 2 % 2 ^ 32) ++ an.2))).flatten ++ tail)) =
        some (p.2, (named.map
        (fun an => toLE 4 an.1 ++ (toLE 4 (an.2.length / 2 % 2 ^ 32) ++ an.2))).flatten ++ tail) := by
      rw [← hk]
      exact takeN?_append _ _
    rw [e4]
    simp only [hval]
    have hfalse : ([64, 0].isPrefixOf p.2) = false := by
      revert hat
      cases ([64, 0].isPrefixOf p.2) <;> simp
    simp only [hfalse, Bool.false_eq_true, if_false]
    rw [ih tail (fun q hq => hp q (by simp [hq]))]

/-! ### Helper lemmas: lengths and sums over the directory data -/

theorem plainOffsets_mem : ∀ (fs : List Function) (a : Nat) (p : Nat × Function),
    p ∈ plainOffsets fs a → p.2 ∈ fs := by
  intro fs
  induction fs with
  | nil => intro a p h; cases h
  | cons f fs ih =>
    intro a p h
    rw [plainOffsets_cons] at h
    rcases List.mem_cons.1 h with h | h
    · rw [h]; simp
    · exact List.mem_cons_of_mem _ (ih _ p h)

theorem plainOffsets_length : ∀ (fs : List Function) (a : Nat),
    (plainOffsets fs a).length = fs.length := by
  intro fs
  induction fs with
  | nil => intro a; rfl
  | cons f fs ih =>
    intro a
    rw [plainOffsets_cons]
    simp [ih]

theorem plainOffsets_map_sum (g : Function → Nat) :
    ∀ (fs : List Function) (a : Nat),
    ((plainOffsets fs a).map (fun p => g p.2)).sum = (fs.map g).sum := by
  intro fs
  induction fs with
  | nil => intro a; rfl
  | cons f fs ih =>
    intro a
    rw [plainOffsets_cons]
    simp [ih]

theorem sum_filter_le (l : List (Nat × Function)) (p : Nat × Function → Bool)
    (g : Nat × Function → Nat) :
    ((l.filter p).map g).sum ≤ (l.map g).sum := by
  induction l with
  | nil => simp
  | cons x l ih =>
    rw [List.filter_cons]
    by_cases hx : p x = true
    · rw [if_pos hx]
      simp only [List.map_cons, List.sum_cons]
      omega
    · rw [if_neg hx]
      simp only [List.map_cons, List.sum_cons]
      omega

theorem validate_plain (fs : List Function) (hwf : ∀ f ∈ fs, WfField f)
    (p : Nat × Function) (hp : p ∈ plainOffsets fs 0) :
    validate_name (imageBytes fs) p.1 (nameField p.2) = .ok () ∧
    p.1 + p.2.bytecode.length ≤ totalSize fs := by
  obtain ⟨t, hd, -, hb⟩ := plainOffsets_decomp fs 0 p hp
  rw [Nat.sub_zero] at hd hb
  have hmem : p.2 ∈ fs := plainOffsets_mem fs 0 p hp
  have hext := extract_name_at (imageBytes fs) p.1 p.2.bytecode t (nameField p.2) hd
    (by rw [imageBytes_length]; omega) (wf_extract p.2 (hwf p.2 hmem)).1
  refine ⟨?_, hb⟩
  unfold validate_name
  simp only [hext]
  simp

theorem sum_const4 : ∀ (pro : List Nat), (pro.map (List.length ∘ toLE 4)).sum = 4 * pro.length := by
  intro pro
  induction pro with
  | nil => rfl
  | cons a l ih =>
    rw [List.map_cons, List.sum_cons, List.length_cons, ih]
    simp [toLE_length]
    omega

theorem sum_rec : ∀ (named : List (Nat × Bytes)),
    (named.map (List.length ∘ fun an =>
      toLE 4 an.1 ++ toLE 4 (an.2.length / 2 % 2 ^ 32) ++ an.2)).sum =
    (named.map (fun an => 8 + an.2.length)).sum := by
  intro named
  induction named with
  | nil => rfl
  | cons p l ih =>
    rw [List.map_cons, List.sum_cons, List.map_cons, List.sum_cons, ih]
    simp [Function.comp, toLE_length]
    omega

theorem dirBytes_length (pro : List Nat) (named : List (Nat × Bytes)) :
    (dirBytes pro named).length =
      12 + 4 * pro.length + (named.map (fun an => 8 + an.2.length)).sum := by
  unfold dirBytes
  rw [List.length_append, List.length_append, List.length_append, List.length_append,
    List.length_flatten, List.length_flatten, List.map_map, List.map_map,
    toLE_length, toLE_length, toLE_length, sum_const4, sum_rec]
  omega

theorem sum_add_const (fs : List Function) :
    (fs.map (fun f => 8 + f.bytecode.length)).sum = 8 * fs.length + totalSize fs := by
  induction fs with
  | nil => rfl
  | cons f fs ih =>
    rw [List.map_cons, List.sum_cons, List.length_cons, totalSize_cons, ih]
    omega

theorem parseNamed_emit2 (image : Bytes) (named : List (Nat × Bytes))
    (h : ∀ p ∈ named, p.1 < 2 ^ 32 ∧ (∃ k, p.2.length = 2 * k ∧ k < 2 ^ 32) ∧
      validate_name image p.1 p.2 = .ok () ∧ ¬ ([64, 0].isPrefixOf p.2 = true)) :
    parseNamed image named.length
      ((named.map (fun an => toLE 4 an.1 ++ toLE 4 (an.2.length / 2 % 2 ^ 32) ++ an.2)).flatten) =
      .ok (named.map Prod.fst, []) := by
  have h2 := parseNamed_emit image named [] h
  rwa [List.append_nil] at h2

theorem parseDir_emit (image : Bytes) (pro : List Nat) (named : List (Nat × Bytes))
    (hpl : pro.length < 2 ^ 32) (hnl : named.length < 2 ^ 32)
    (hpro32 : ∀ a ∈ pro, a < 2 ^ 32)
    (hproval : ∀ a ∈ pro, validate_name image a PROLOGUE = .ok ())
    (hncond : ∀ p ∈ named, p.1 < 2 ^ 32 ∧ (∃ k, p.2.length = 2 * k ∧ k < 2 ^ 32) ∧
      validate_name image p.1 p.2 = .ok () ∧ ¬ ([64, 0].isPrefixOf p.2 = true)) :
    parseDir image (dirBytes pro named) =
      carve (diffSizes (List.insertionSort (· ≤ ·) (pro ++ named.map Prod.fst) ++
        [image.length % 2 ^ 32])) image := by
  unfold parseDir dirBytes
  simp only [List.append_assoc]
  have hpp := parsePrologues_emit image pro (toLE 4 0 ++ (toLE 4 named.length ++
      (named.map (fun an => toLE 4 an.1 ++ (toLE 4 (an.2.length / 2 % 2 ^ 32) ++ an.2))).flatten))
      hpro32 hproval
  have hnn := parseNamed_emit2 image named hncond
  simp only [List.append_assoc] at hnn
  simp only [takeN?_toLE, Nat.mod_eq_of_lt hpl, Nat.mod_eq_of_lt hnl,
    fromLE_toLE 4 pro.length (by norm_num; omega), fromLE_toLE 4 named.length (by norm_num; omega),
    fromLE_toLE 4 0 (by norm_num), hpp, hnn]
  rw [if_neg (show ¬ (0 : Nat) ≠ 0 from fun h => h rfl)]

theorem parseDir_plain (fs : List Function) (pro : List Nat) (named : List (Nat × Bytes))
    (hwf : ∀ f ∈ fs, WfField f)
    (hat : ∀ f ∈ fs, startsWithAt f.name = true → f.name = atInitialize)
    (hsize : totalSize fs < 2 ^ 32)
    (hpro : pro = ((plainOffsets fs 0).filter (fun p => p.2.name = atInitialize)).map Prod.fst)
    (hnamed : named = ((plainOffsets fs 0).filter (fun p => ¬ p.2.name = atInitialize)).map
      (fun p => (p.1, nameField p.2))) :
    parseDir (imageBytes fs) (dirBytes pro (List.insertionSort leName named)) = .ok fs := by
  have hone : ∀ f ∈ fs, 1 ≤ f.bytecode.length := by
    intro f hf
    have := wf_five f (hwf f hf)
    omega
  have hlen : fs.length ≤ totalSize fs := length_le_totalSize fs hone
  have hproLen : pro.length ≤ fs.length := by
    rw [hpro, List.length_map]
    exact (List.length_filter_le _ _).trans (plainOffsets_length fs 0).le
  have hnamedLen : named.length ≤ fs.length := by
    rw [hnamed, List.length_map]
    exact (List.length_filter_le _ _).trans (plainOffsets_length fs 0).le
  have hsortPerm := List.perm_insertionSort leName named
  have hsortLen : (List.insertionSort leName named).length = named.length := hsortPerm.length_eq
  have hpro32 : ∀ a ∈ pro, a < 2 ^ 32 := by
    intro a ha
    rw [hpro] at ha
    obtain ⟨p, hpf, hpe⟩ := List.mem_map.1 ha
    have hpo := (List.mem_filter.1 hpf).1
    have hb := (validate_plain fs hwf p hpo).2
    have h1 := hone p.2 (plainOffsets_mem fs 0 p hpo)
    omega
  have hproval : ∀ a ∈ pro, validate_name (imageBytes fs) a PROLOGUE = .ok () := by
    intro a ha
    rw [hpro] at ha
    obtain ⟨p, hpf, hpe⟩ := List.mem_map.1 ha
    obtain ⟨hpo, hPdec⟩ := List.mem_filter.1 hpf
    have hP : p.2.name = atInitialize := of_decide_eq_true hPdec
    have hmem := plainOffsets_mem fs 0 p hpo
    have hval := (validate_plain fs hwf p hpo).1
    have hdec := (wf_extract p.2 (hwf p.2 hmem)).2
    rw [hP] at hdec
    have hnf := prologue_of_atInit _ hdec
    rw [← hpe, ← hnf]
    exact hval
  have hncond : ∀ q ∈ List.insertionSort leName named, q.1 < 2 ^ 32 ∧
      (∃ k, q.2.length = 2 * k ∧ k < 2 ^ 32) ∧
      validate_name (imageBytes fs) q.1 q.2 = .ok () ∧ ¬ ([64, 0].isPrefixOf q.2 = true) := by
    intro q hq
    have hq2 : q ∈ named := hsortPerm.mem_iff.1 hq
    rw [hnamed] at hq2
    obtain ⟨p, hpf, hpe⟩ := List.mem_map.1 hq2
    obtain ⟨hpo, hQdec⟩ := List.mem_filter.1 hpf
    have hQ : ¬ p.2.name = atInitialize := of_decide_eq_true hQdec
    have hmem := plainOffsets_mem fs 0 p hpo
    obtain ⟨hval, hb⟩ := validate_plain fs hwf p hpo
    obtain ⟨k, hk, hk5⟩ := wf_sizes p.2 (hwf p.2 hmem)
    have hdec := (wf_extract p.2 (hwf p.2 hmem)).2
    subst hpe
    refine ⟨?_, ⟨k, ?_, ?_⟩, ?_, ?_⟩ <;> dsimp only
    · omega
    · exact hk
    · omega
    · exact hval
    · intro hpre
      have hsw := (from_utf16_at _ _ hdec).2 hpre
      exact hQ (hat p.2 hmem hsw)
  rw [parseDir_emit (imageBytes fs) pro (List.insertionSort leName named)
    (by omega) (by rw [hsortLen]; omega) hpro32 hproval hncond]
  have hfperm : List.Perm ((plainOffsets fs 0).filter (fun p => p.2.name = atInitialize) ++
      (plainOffsets fs 0).filter (fun p => ¬ p.2.name = atInitialize))
      (plainOffsets fs 0) := by
    have hneg : (fun p : Nat × Function => decide (¬ p.2.name = atInitialize)) =
        (fun p : Nat × Function => ! decide (p.2.name = atInitialize)) := by
      funext p
      simp [decide_not]
    rw [show ((plainOffsets fs 0).filter (fun p => ¬ p.2.name = atInitialize)) =
      ((plainOffsets fs 0).filter (fun p : Nat × Function =>
        ! decide (p.2.name = atInitialize))) by rw [hneg]]
    exact List.filter_append_perm _ _
  have hperm2 : List.Perm (pro ++ (List.insertionSort leName named).map Prod.fst)
      ((plainOffsets fs 0).map Prod.fst) := by
    have h1 : List.Perm ((List.insertionSort leName named).map Prod.fst)
        (named.map Prod.fst) := hsortPerm.map Prod.fst
    refine (List.Perm.append_left pro h1).trans ?_
    rw [hpro, hnamed, List.map_map]
    have hcomp : (Prod.fst ∘ fun p : Nat × Function => (p.1, nameField p.2)) = Prod.fst := by
      funext p
      rfl
    rw [hcomp, ← List.map_append]
    exact hfperm.map Prod.fst
  have haddr : List.insertionSort (· ≤ ·)
      (pro ++ (List.insertionSort leName named).map Prod.fst) =
      (plainOffsets fs 0).map Prod.fst :=
    List.eq_of_perm_of_sorted ((List.perm_insertionSort _ _).trans hperm2)
      (List.sorted_insertionSort _ _) (plainOffsets_sorted fs 0)
  rw [haddr, imageBytes_length, Nat.mod_eq_of_lt hsize]
  have hds : diffSizes ((plainOffsets fs 0).map Prod.fst ++ [totalSize fs]) =
      fs.map (fun f => f.bytecode.length) := by
    have h := diffSizes_offsets fs 0 (by omega)
    rwa [Nat.zero_add] at h
  rw [hds, carve_flat fs hwf]

/-! ### Helper lemmas: inverting a successful parse -/

theorem parseSections_bounds : ∀ (fuel : Nat) (l : Bytes) (st st2 : Sections),
    (∀ b ∈ l, b < 256) →
    st.global.length < 2 ^ 64 → st.data.length < 2 ^ 64 →
    parseSections fuel l st = .ok st2 →
    st2.global.length < 2 ^ 64 ∧ st2.data.length < 2 ^ 64 := by
  intro fuel
  induction fuel with
  | zero =>
    intro l st st2 hl hg hd h
    unfold parseSections at h
    by_cases he : l.isEmpty = true
    · rw [if_pos he] at h
      injection h with h
      subst h
      exact ⟨hg, hd⟩
    · rw [if_neg he] at h
      cases h
  | succ n ih =>
    intro l st st2 hl hg hd h
    unfold parseSections at h
    by_cases he : l.isEmpty
    · rw [if_pos he] at h
      injection h with h
      subst h
      exact ⟨hg, hd⟩
    · rw [if_neg he] at h
      rcases h1 : takeN? 8 l with _ | ⟨header, r1⟩ <;> simp only [h1] at h
      · cases h
      rcases h2 : takeN? 8 r1 with _ | ⟨lenb, r2⟩ <;> simp only [h2] at h
      · cases h
      rcases h3 : takeN? (fromLE lenb) r2 with _ | ⟨contents, rest⟩ <;> simp only [h3] at h
      · cases h
      obtain ⟨e1, l1⟩ := takeN?_eq_some h1
      obtain ⟨e2, l2⟩ := takeN?_eq_some h2
      obtain ⟨e3, l3⟩ := takeN?_eq_some h3
      have hrest : ∀ b ∈ rest, b < 256 := by
        intro b hb
        apply hl
        rw [e1, e2, e3]
        simp [hb]
      have hcon : contents.length < 2 ^ 64 := by
        rw [l3]
        have hlenb : ∀ x ∈ lenb, x < 256 := by
          intro x hx
          apply hl
          rw [e1, e2]
          simp [hx]
        have hf := fromLE_lt lenb hlenb
        rw [l2] at hf
        norm_num at hf ⊢
        exact hf
      split_ifs at h
      · exact ih rest { st with image := contents } st2 hrest hg hd h
      · exact ih rest { st with function := contents } st2 hrest hg hd h
      · exact ih rest { st with global := contents } st2 hrest hcon hd h
      · exact ih rest { st with data := contents } st2 hrest hg hcon h
      · exact ih rest { st with conststr := contents } st2 hrest hg hd h
      · exact ih rest { st with linkinf := contents } st2 hrest hg hd h

theorem csxFinish_inv (bh : Bytes) (st : Sections) (img : CSX)
    (h : csxFinish bh true st = .ok img) :
    img.base_hash = bh ∧ img.mods_used = [] ∧ img.base_func = buildBaseFunc img.functions ∧
    img.global = st.global ∧ img.data = st.data ∧ st.global ≠ [] ∧ st.data ≠ [] ∧
    parseDir st.image st.function = .ok img.functions := by
  unfold csxFinish at h
  by_cases h1 : st.global = []
  · rw [if_pos h1] at h; cases h
  rw [if_neg h1] at h
  by_cases h2 : st.data = []
  · rw [if_pos h2] at h; cases h
  rw [if_neg h2] at h
  by_cases h3 : st.conststr ≠ [] ∧ st.conststr ≠ [0, 0, 0, 0]
  · rw [if_pos h3] at h; cases h
  rw [if_neg h3] at h
  by_cases h4 : st.linkinf ≠ [] ∧ st.linkinf ≠ List.replicate 16 0 ∧ true = true
  · rw [if_pos h4] at h; cases h
  rw [if_neg h4] at h
  rcases hp : parseDir st.image st.function with e | functions <;> simp only [hp] at h
  · cases h
  · injection h with h
    subst h
    exact ⟨rfl, rfl, rfl, rfl, rfl, h1, h2, rfl⟩

theorem csxNew_inv (B : Bytes) (img : CSX) (hB : ∀ b ∈ B, b < 256)
    (h : CSX.new B = .ok img) :
    img.base_hash = sha3_224 B ∧ img.mods_used = [] ∧
    img.base_func = buildBaseFunc img.functions ∧
    img.global ≠ [] ∧ img.data ≠ [] ∧
    img.global.length < 2 ^ 64 ∧ img.data.length < 2 ^ 64 := by
  unfold CSX.new CSX.new_ at h
  simp only [if_pos] at h
  rcases h0 : takeN? 64 B with _ | ⟨header, body⟩ <;> simp only [h0] at h
  · cases h
  · by_cases hm : MAGIC.isPrefixOf header = true
    · rw [if_pos hm] at h
      rcases hs : parseSections body.length body Sections.empty with e | st <;>
        simp only [hs] at h
      · cases h
      · obtain ⟨hbh, hmu, hbf, hg, hd, hgne, hdne, hpd⟩ := csxFinish_inv _ _ _ h
        obtain ⟨e0, -⟩ := takeN?_eq_some h0
        have hbody : ∀ b ∈ body, b < 256 := by
          intro b hb
          apply hB
          rw [e0]
          simp [hb]
        obtain ⟨hglen, hdlen⟩ := parseSections_bounds body.length body Sections.empty st
          hbody (by norm_num [Sections.empty]) (by norm_num [Sections.empty]) hs
        refine ⟨hbh, hmu, hbf, ?_, ?_, ?_, ?_⟩
        · rw [hg]; exact hgne
        · rw [hd]; exact hdne
        · rw [hg]; exact hglen
        · rw [hd]; exact hdlen
    · rw [if_neg hm] at h
      cases h

/-- `CSX.new` with the base-mode choices zeta/iota-reduced. -/
theorem csxNew_eq (csx : Bytes) : CSX.new csx = (match takeN? 64 csx with
    | none => .error .unexpectedEof
    | some (header, body) =>
      if MAGIC.isPrefixOf header then
        match parseSections body.length body Sections.empty with
        | .error e => .error e
        | .ok st => csxFinish (sha3_224 csx) true st
      else .error .badMagic) := rfl

theorem parseSections_rebuilt (imgb dir g d : Bytes)
    (himgb : imgb.length < 2 ^ 64) (hdir : dir.length < 2 ^ 64)
    (hg : g.length < 2 ^ 64) (hd : d.length < 2 ^ 64) :
    parseSections (sectionBytes secImage imgb ++ (sectionBytes secFunction dir ++
      (sectionBytes secGlobal g ++ (sectionBytes secData d ++
      (sectionBytes secConststr [0, 0, 0, 0] ++
      (sectionBytes secLinkinf (List.replicate 16 0) ++ [])))))).length
      (sectionBytes secImage imgb ++ (sectionBytes secFunction dir ++
      (sectionBytes secGlobal g ++ (sectionBytes secData d ++
      (sectionBytes secConststr [0, 0, 0, 0] ++
      (sectionBytes secLinkinf (List.replicate 16 0) ++ [])))))) Sections.empty =
      .ok ⟨imgb, dir, g, d, [0, 0, 0, 0], List.replicate 16 0⟩ := by
  rw [parseSections_sec _ secImage imgb _ _ (Or.inl rfl) himgb le_rfl]
  rw [parseSections_sec _ secFunction dir _ _ (Or.inr (Or.inl rfl)) hdir le_rfl]
  rw [parseSections_sec _ secGlobal g _ _ (Or.inr (Or.inr (Or.inl rfl))) hg le_rfl]
  rw [parseSections_sec _ secData d _ _ (Or.inr (Or.inr (Or.inr (Or.inl rfl)))) hd le_rfl]
  rw [parseSections_sec _ secConststr [0, 0, 0, 0] _ _
    (Or.inr (Or.inr (Or.inr (Or.inr (Or.inl rfl))))) (by norm_num) le_rfl]
  rw [parseSections_sec _ secLinkinf (List.replicate 16 0) _ _
    (Or.inr (Or.inr (Or.inr (Or.inr (Or.inr rfl)))))
    (by rw [List.length_replicate]; norm_num) le_rfl]
  rfl

theorem csxNew_sections (hdr8 imgb dir g d : Bytes) (h8 : hdr8.length = 8)
    (himgb : imgb.length < 2 ^ 64) (hdir : dir.length < 2 ^ 64)
    (hg : g.length < 2 ^ 64) (hd : d.length < 2 ^ 64) :
    CSX.new (MAGIC ++ hdr8 ++ (sectionBytes secImage imgb ++ sectionBytes secFunction dir ++
      sectionBytes secGlobal g ++ sectionBytes secData d ++
      sectionBytes secConststr [0, 0, 0, 0] ++
      sectionBytes secLinkinf (List.replicate 16 0))) =
    csxFinish (sha3_224 (MAGIC ++ hdr8 ++ (sectionBytes secImage imgb ++
      sectionBytes secFunction dir ++ sectionBytes secGlobal g ++ sectionBytes secData d ++
      sectionBytes secConststr [0, 0, 0, 0] ++
      sectionBytes secLinkinf (List.replicate 16 0)))) true
      ⟨imgb, dir, g, d, [0, 0, 0, 0], List.replicate 16 0⟩ := by
  rw [csxNew_eq]
  have hassoc : sectionBytes secImage imgb ++ sectionBytes secFunction dir ++
      sectionBytes secGlobal g ++ sectionBytes secData d ++
      sectionBytes secConststr [0, 0, 0, 0] ++
      sectionBytes secLinkinf (List.replicate 16 0) =
      sectionBytes secImage imgb ++ (sectionBytes secFunction dir ++
      (sectionBytes secGlobal g ++ (sectionBytes secData d ++
      (sectionBytes secConststr [0, 0, 0, 0] ++
      (sectionBytes secLinkinf (List.replicate 16 0) ++ []))))) := by
    simp
  rw [hassoc]
  have h64 : takeN? 64 ((MAGIC ++ hdr8) ++ (sectionBytes secImage imgb ++
      (sectionBytes secFunction dir ++ (sectionBytes secGlobal g ++ (sectionBytes secData d ++
      (sectionBytes secConststr [0, 0, 0, 0] ++
      (sectionBytes secLinkinf (List.replicate 16 0) ++ []))))))) =
      some (MAGIC ++ hdr8, sectionBytes secImage imgb ++
      (sectionBytes secFunction dir ++ (sectionBytes secGlobal g ++ (sectionBytes secData d ++
      (sectionBytes secConststr [0, 0, 0, 0] ++
      (sectionBytes secLinkinf (List.replicate 16 0) ++ [])))))) := by
    rw [show (64 : Nat) = (MAGIC ++ hdr8).length by rw [List.length_append, h8]; rfl]
    exact takeN?_append _ _
  simp only [h64]
  rw [if_pos ((isPrefixOf_true _ _).2 ⟨hdr8, rfl⟩)]
  simp only [parseSections_rebuilt imgb dir g d himgb hdir hg hd]

theorem dirBytes_rebuilt_length (fs : List Function)
    (hwf : ∀ f ∈ fs, WfField f) (hsize : totalSize fs < 2 ^ 32) :
    (dirBytes (((plainOffsets fs 0).filter (fun p => p.2.name = atInitialize)).map Prod.fst)
      (List.insertionSort leName (((plainOffsets fs 0).filter
        (fun p => ¬ p.2.name = atInitialize)).map (fun p => (p.1, nameField p.2))))).length
      < 2 ^ 64 := by
  rw [dirBytes_length]
  have hone : ∀ f ∈ fs, 1 ≤ f.bytecode.length := by
    intro f hf
    have := wf_five f (hwf f hf)
    omega
  have hlen := length_le_totalSize fs hone
  have hproLen : ((((plainOffsets fs 0).filter (fun p => p.2.name = atInitialize)).map
      Prod.fst)).length ≤ fs.length := by
    rw [List.length_map]
    exact (List.length_filter_le _ _).trans (plainOffsets_length fs 0).le
  have hpt : ∀ p ∈ (plainOffsets fs 0).filter (fun p => ¬ p.2.name = atInitialize),
      8 + (nameField p.2).length ≤ 8 + p.2.bytecode.length := by
    intro p hp
    have hmem := plainOffsets_mem fs 0 p (List.mem_filter.1 hp).1
    obtain ⟨k, hk, hk5⟩ := wf_sizes p.2 (hwf p.2 hmem)
    omega
  have hperm := (List.perm_insertionSort leName (((plainOffsets fs 0).filter
      (fun p => ¬ p.2.name = atInitialize)).map (fun p => (p.1, nameField p.2)))).map
      (fun an : Nat × Bytes => 8 + an.2.length)
  have hsum1 := hperm.sum_eq
  have hcomp : (((plainOffsets fs 0).filter (fun p => ¬ p.2.name = atInitialize)).map
      (fun p => (p.1, nameField p.2))).map (fun an : Nat × Bytes => 8 + an.2.length) =
      ((plainOffsets fs 0).filter (fun p => ¬ p.2.name = atInitialize)).map
      (fun p => 8 + (nameField p.2).length) := by
    rw [List.map_map]
    rfl
  rw [hcomp] at hsum1
  have s1 := List.sum_le_sum hpt
  have s2 := sum_filter_le (plainOffsets fs 0) (fun p => ¬ p.2.name = atInitialize)
    (fun p => 8 + p.2.bytecode.length)
  have s3 := plainOffsets_map_sum (fun f => 8 + f.bytecode.length) fs 0
  have s4 := sum_add_const fs
  omega

/-- C1 amended: the round trip holds in every field except `base_hash`.  For
a byte string `B` accepted by `CSX::new` whose parse satisfies the data-model
invariants (each function's bytecode carries a well-formed embedded name
field decoding to its recorded name, `@Initialize` is the only `@`-name —
the parser does not enforce these, see the C10 counterexample) and whose
total bytecode size stays below `2^32`, `rebuild` succeeds and its output is
again accepted by `CSX::new`; the second parse agrees with the first in
`base_func`, `mods_used`, `global`, `data` and the ordered function list,
while its `base_hash` is the digest of the rebuilt bytes — not of `B`, so
the spec's pointwise equality fails in that one field. -/
theorem C1_roundtrip_reparse (B : Bytes) (img : CSX)
    (hB : ∀ b ∈ B, b < 256)
    (hok : CSX.new B = .ok img)
    (hwf : ∀ f ∈ img.functions, WfField f)
    (hat : ∀ f ∈ img.functions, startsWithAt f.name = true → f.name = atInitialize)
    (hsize : totalSize img.functions < 2 ^ 32) :
    ∃ out, CSX.rebuild img = some out ∧
      CSX.new out = .ok { img with base_hash := sha3_224 out } := by
  obtain ⟨hbh, hmu, hbf, hgne, hdne, hglen, hdlen⟩ := csxNew_inv B img hB hok
  unfold CSX.rebuild
  rw [rebuildDir_eq img.functions 0 hwf, funcOffsets_eq_plain img.functions 0 (by omega),
    Option.map_some']
  refine ⟨_, rfl, ?_⟩
  dsimp only
  rw [csxNew_sections _ _ _ _ _ (toLE_length 8 _)
    (by rw [imageBytes_length]; omega)
    (dirBytes_rebuilt_length img.functions hwf hsize) hglen hdlen]
  unfold csxFinish
  dsimp only
  rw [if_neg hgne, if_neg hdne, if_neg (by simp), if_neg (by simp)]
  simp only [parseDir_plain img.functions _ _ hwf hat hsize rfl rfl]
  rw [hbf, hmu]
  simp only [if_true]

set_option maxRecDepth 100000 in
/-- C1 witness: the round-trip theorem applied to the concrete accepted
input `Bmin`; every hypothesis holds by computation. -/
theorem C1_witness :
    ∃ out, CSX.rebuild imgMin = some out ∧
      CSX.new out = .ok { imgMin with base_hash := sha3_224 out } :=
  C1_roundtrip_reparse Bmin imgMin (by decide) (by decide) (by decide) (by decide) (by decide)

set_option maxRecDepth 100000 in
/-- C1 counterexample to the claim as stated: `Bmin` is accepted, its parse
rebuilds and re-parses successfully, the two parses agree in `base_func`,
`mods_used`, `global`, `data` and the function list — but not in
`base_hash`, because the rebuilt byte string differs from the input and the
stored hash is the digest of the bytes that were parsed. -/
theorem C1_counterexample :
    (match CSX.new Bmin with
      | .ok i1 =>
        match CSX.rebuild i1 with
        | some out =>
          match CSX.new out with
          | .ok i2 => decide (¬ i2.base_hash = i1.base_hash ∧ i2.base_func = i1.base_func ∧
              i2.mods_used = i1.mods_used ∧ i2.global = i1.global ∧
              i2.data = i1.data ∧ i2.functions = i1.functions)
          | .error _ => false
        | none => false
      | .error _ => false) = true := by decide

end Nyandere
